import Mathlib

/-!
Verification of the weighted-graph routing engine (grafo.py, backend/helpers.py,
backend/app.py) against its natural-language specification.

Conventions of the shallow embedding:
* Python dicts are association lists `List (String × β)` keeping insertion order;
  `dictGet` is `d[k]` as an `Option`, `dictSet` is `d[k] = v` (update in place,
  append when the key is new), matching CPython semantics.
* Python numbers are embedded as `ℚ` (floating-point rounding is abstracted away);
  `float("inf")` is `none` in `Option ℚ`.
* Python exceptions are modelled with `Except PyErr`; `PyErr.keyError` is a
  `KeyError`, `PyErr.zeroDiv` a `ZeroDivisionError`, `PyErr.stopIter` a
  `StopIteration`, and `PyErr.fuelOut` marks exhaustion of the fuel that bounds
  the embedded while-loops (the Python loops have no such bound).
* An input JSON field that is absent is `none` in the corresponding record.
-/

set_option maxRecDepth 20000

set_option allowUnsafeReducibility true

attribute [local semireducible] Rat.add Rat.sub Rat.mul Rat.div Rat.neg Rat.inv

/-- Decidable equality of embedded Python results, written so that the data
part reduces in the kernel. -/
instance {ε α : Type} [DecidableEq ε] [DecidableEq α] : DecidableEq (Except ε α) := fun a b =>
  match a, b with
  | .error e1, .error e2 =>
    match decEq e1 e2 with
    | isTrue h => isTrue (h ▸ rfl)
    | isFalse h => isFalse (fun hh => h (by cases hh; rfl))
  | .ok v1, .ok v2 =>
    match decEq v1 v2 with
    | isTrue h => isTrue (h ▸ rfl)
    | isFalse h => isFalse (fun hh => h (by cases hh; rfl))
  | .error _, .ok _ => isFalse (fun hh => by cases hh)
  | .ok _, .error _ => isFalse (fun hh => by cases hh)

/-- Errors a Python computation can raise in this embedding. -/
inductive PyErr where
  | keyError : PyErr
  | zeroDiv : PyErr
  | stopIter : PyErr
  | fuelOut : PyErr
deriving DecidableEq

/-- Python 3 `round` on a rational: round half to even (banker's rounding). -/
def pyRound (q : ℚ) : ℤ :=
  let f : ℤ := ⌊q⌋
  let r : ℚ := q - (f : ℚ)
  if r < 1/2 then f
  else if 1/2 < r then f + 1
  else if f % 2 = 0 then f else f + 1

/-- Python `round(x, 1)`: the nearest multiple of one tenth, half to even. -/
def pyRound1 (q : ℚ) : ℚ := (pyRound (q * 10) : ℚ) / 10

/-- Python `int(x)` on a float value: truncation toward zero. -/
def pyInt (q : ℚ) : ℤ := if q < 0 then ⌈q⌉ else ⌊q⌋

/-- Dict read `d[k]`, as an option (callers decide whether a miss is a KeyError). -/
def dictGet {β : Type} (k : String) : List (String × β) → Option β
  | [] => none
  | (k1, v) :: rest => if k1 = k then some v else dictGet k rest

/-- Dict write `d[k] = v`: update in place, append when the key is new. -/
def dictSet {β : Type} (k : String) (v : β) : List (String × β) → List (String × β)
  | [] => [(k, v)]
  | (k1, v1) :: rest => if k1 = k then (k, v) :: rest else (k1, v1) :: dictSet k v rest

/-- Strict comparison `q < w` where `w` may be infinity (`none`). -/
def qltOpt (q : ℚ) (w : Option ℚ) : Bool :=
  match w with
  | none => true
  | some x => q < x

/-- Strict comparison `q > w` where `w` may be infinity (`none`). -/
def qgtOpt (q : ℚ) (w : Option ℚ) : Bool :=
  match w with
  | none => false
  | some x => x < q

/-- Addition on distances where `none` is infinity. -/
def wadd (a b : Option ℚ) : Option ℚ :=
  match a, b with
  | some x, some y => some (x + y)
  | _, _ => none

/-- Strict order on distances where `none` is infinity. -/
def wltW (a b : Option ℚ) : Bool :=
  match a, b with
  | some x, some y => x < y
  | some _, none => true
  | none, _ => false

/-- Stable insertion of an element into a sorted list: the element goes after
every existing element that compares less-or-equal, preserving the original
order among equals, as the stable Python sort does. -/
def insertSorted {α : Type} (le : α → α → Bool) (a : α) : List α → List α
  | [] => [a]
  | b :: rest => if le b a then b :: insertSorted le a rest else a :: b :: rest

/-- Stable ascending sort, the embedding of `list.sort` (Python sorts are
stable, so any stable sort with the same comparison yields the same list;
insertion sort is used because it reduces in the kernel). -/
def pySort {α : Type} (le : α → α → Bool) (l : List α) : List α :=
  l.foldl (fun acc a => insertSorted le a acc) []

/-- Weighted graph from grafo.py: `self.graph` is a defaultdict mapping a node
name to a dict of neighbor name to edge weight. -/
structure Graph where
  adj : List (String × List (String × ℚ))
deriving DecidableEq

/-- Empty graph, `Graph.__init__`. -/
def Graph.empty : Graph := ⟨[]⟩

/-- Source `Graph.add_node`: add the node with an empty row unless present. -/
def Graph.add_node (g : Graph) (node : String) : Graph :=
  if (dictGet node g.adj).isSome then g else ⟨g.adj ++ [(node, [])]⟩

/-- Source `Graph.add_edge`: `self.graph[node1][node2] = weight`, and the
symmetric entry when not directed. The defaultdict read creates a missing row. -/
def Graph.add_edge (g : Graph) (node1 node2 : String) (weight : ℚ) (directed : Bool) : Graph :=
  let row1 := (dictGet node1 g.adj).getD []
  let g1 : Graph := ⟨dictSet node1 (dictSet node2 weight row1) g.adj⟩
  if directed then g1
  else
    let row2 := (dictGet node2 g1.adj).getD []
    ⟨dictSet node2 (dictSet node1 weight row2) g1.adj⟩

/-- Keys of the adjacency dict, in insertion order. -/
def Graph.nodes (g : Graph) : List String := g.adj.map Prod.fst

/-- Neighbor row of a node; a missing node reads as the empty row, matching the
defaultdict (the mutation this read performs in Python never affects results). -/
def Graph.nbrs (g : Graph) (u : String) : List (String × ℚ) :=
  (dictGet u g.adj).getD []

/-- Total number of directed edge entries in the adjacency dict. -/
def Graph.totalEdges (g : Graph) : Nat :=
  (g.adj.map (fun p => p.2.length)).sum

/-- Membership of a directed edge in the graph. -/
def Graph.hasEdge (g : Graph) (u v : String) : Prop :=
  ∃ w, dictGet v (g.nbrs u) = some w

instance (g : Graph) (u v : String) : Decidable (g.hasEdge u v) := by
  unfold Graph.hasEdge
  exact (match dictGet v (g.nbrs u) with
    | some w => isTrue ⟨w, rfl⟩
    | none => isFalse (by rintro ⟨w, h⟩; cases h))

/-- State of the dijkstra while-loop: the distances dict and the pending heap
entries (the heap is modelled as the multiset of its entries; heapq pops the
lexicographically least `(distance, node)` tuple). -/
structure DState where
  dist : List (String × Option ℚ)
  pq : List (ℚ × String)
deriving DecidableEq

/-- Tuple comparison of heap entries, as Python compares `(distance, node)`. -/
def entryLe (a b : ℚ × String) : Bool :=
  a.1 < b.1 || (a.1 == b.1 && !(b.2 < a.2))

/-- Least entry of the heap under tuple comparison. -/
def pqMin : List (ℚ × String) → Option (ℚ × String)
  | [] => none
  | e :: rest =>
    match pqMin rest with
    | none => some e
    | some m => some (if entryLe e m then e else m)

/-- Remove one occurrence of an entry from the heap. -/
def removeFirst (e : ℚ × String) : List (ℚ × String) → List (ℚ × String)
  | [] => []
  | x :: rest => if x = e then rest else x :: removeFirst e rest

/-- Pop `heapq.heappop`: the least entry and the remaining heap. -/
def popMinD (pq : List (ℚ × String)) : Option ((ℚ × String) × List (ℚ × String)) :=
  match pqMin pq with
  | none => none
  | some m => some (m, removeFirst m pq)

/-- Relaxation loop body of `Graph.dijkstra`: for every neighbor, if the path
through the popped node improves the recorded distance, record it and push.
Reading `distances[neighbor]` for a node that is not a key raises KeyError. -/
def relaxFold (d : ℚ) : List (String × ℚ) → DState → Except PyErr DState
  | [], st => .ok st
  | (y, w) :: rest, st =>
    match dictGet y st.dist with
    | none => .error .keyError
    | some dy =>
      if qltOpt (d + w) dy then
        relaxFold d rest ⟨dictSet y (some (d + w)) st.dist, st.pq ++ [(d + w, y)]⟩
      else relaxFold d rest st

/-- While-loop of `Graph.dijkstra`, with fuel bounding the iteration count. -/
def dloop (g : Graph) : Nat → DState → Except PyErr (List (String × Option ℚ))
  | 0, st =>
    match pqMin st.pq with
    | none => .ok st.dist
    | some _ => .error .fuelOut
  | fuel + 1, st =>
    match popMinD st.pq with
    | none => .ok st.dist
    | some (e, rest) =>
      match dictGet e.2 st.dist with
      | none => .error .keyError
      | some du =>
        if qgtOpt e.1 du then dloop g fuel ⟨st.dist, rest⟩
        else
          match relaxFold e.1 (g.nbrs e.2) ⟨st.dist, rest⟩ with
          | .error er => .error er
          | .ok st2 => dloop g fuel st2

/-- Source `Graph.dijkstra`: distances over all graph nodes initialized to
infinity, the start forced to 0, then the heap loop. The fuel `2 + V + E`
is shown sufficient for graphs with nonnegative weights. -/
def Graph.dijkstra (g : Graph) (start : String) : Except PyErr (List (String × Option ℚ)) :=
  let dist0 := dictSet start (some 0) (g.nodes.map (fun n => (n, (none : Option ℚ))))
  dloop g (2 + g.nodes.length + g.totalEdges) ⟨dist0, [(0, start)]⟩

/-- Matrix update for the string-indexed matrices of Floyd-Warshall. -/
def mupd {α : Type} (m : String → String → α) (i j : String) (v : α) : String → String → α :=
  fun a b => if a = i ∧ b = j then v else m a b

/-- Pair of matrices manipulated by the all-pairs solver. -/
def FWMat : Type := (String → String → Option ℚ) × (String → String → Option String)

/-- Initialization row of the all-pairs solver for one node `u`: diagonal 0
(with no recorded hop), then each direct edge weight with next hop the neighbor
itself, in the order of the source sibling `floyd_warshall`. -/
def fwInitRow (u : String) (row : List (String × ℚ)) (m : FWMat) : FWMat :=
  List.foldl (fun m2 vw => (mupd m2.1 u vw.1 (some vw.2), mupd m2.2 u vw.1 (some vw.1)))
    (mupd m.1 u u (some 0), m.2) row

/-- Initial distance and next-hop matrices over the graph. -/
def fwInit (g : Graph) : FWMat :=
  List.foldl (fun m p => fwInitRow p.1 p.2 m) (fun _ _ => none, fun _ _ => none) g.adj

/-- One relaxation of the all-pairs solver: going from `i` to `j` through `k`,
updating the distance and the next hop in lockstep on strict improvement. -/
def fwRelax (k i j : String) (m : FWMat) : FWMat :=
  if wltW (wadd (m.1 i k) (m.1 k j)) (m.1 i j) then
    (mupd m.1 i j (wadd (m.1 i k) (m.1 k j)), mupd m.2 i j (m.2 i k))
  else m

/-- Triple relaxation loop of the all-pairs solver. -/
def fwLoop (ns : List String) (m : FWMat) : FWMat :=
  List.foldl (fun mk k =>
    List.foldl (fun mi i =>
      List.foldl (fun mj j => fwRelax k i j mj) mi ns) mk ns) m ns

/-- Modelled from the spec: `floyd_warshall_with_paths`, called by
`generar_rutas_optimas` but absent from the sources (only `floyd_warshall`
without path reconstruction is in grafo.py). Per spec section 4.3 it returns a
distance matrix (0 on the diagonal, edge weight for direct edges, infinity
otherwise, relaxed through every intermediate node in order) and a next-hop
matrix updated in lockstep with every successful relaxation. -/
def Graph.floyd_warshall_with_paths (g : Graph) : FWMat :=
  fwLoop g.nodes (fwInit g)

/-- Walk of the next-hop matrix toward `dest`, emitting node names, with fuel;
`none` when a hop is missing (disconnection) or the fuel runs out. -/
def walkNext (nxt : String → String → Option String) (dest : String) :
    Nat → String → Option (List String)
  | 0, _ => none
  | fuel + 1, cur =>
    if cur = dest then some [cur]
    else
      match nxt cur dest with
      | none => none
      | some v =>
        match walkNext nxt dest fuel v with
        | none => none
        | some p => some (cur :: p)

/-- Modelled from the spec: `reconstruct_path`, imported by helpers.py from
grafo but absent from the sources. It walks the next-hop matrix from origin to
destination, emitting node names in order, until the destination is reached or
no next-hop is recorded, in which case the path is empty. -/
def reconstruct_path (origin dest : String) (nxt : String → String → Option String)
    (fuel : Nat) : List String :=
  (walkNext nxt dest fuel origin).getD []

/-- Input node record of helpers.py / app.py: a JSON dict whose fields may be
absent (`none`). A field that is present holds a value of the expected type. -/
structure NodeRec where
  name : Option String
  lat : Option ℚ
  lng : Option ℚ
  type : Option String
  risk : Option ℚ
deriving DecidableEq

/-- Point dict placed on a generated route: control points carry a risk value,
interest points do not (the code writes the literal type strings). -/
structure Punto where
  nodeName : String
  lat : ℚ
  lng : ℚ
  type : String
  risk : Option ℚ
deriving DecidableEq

/-- JSON-like values stored in the route dicts returned to the caller. -/
inductive Val where
  | s : String → Val
  | q : ℚ → Val
  | z : ℤ → Val
  | pts : List Punto → Val
deriving DecidableEq

/-- Candidate route dict appended to `rutas_posibles`, one field per key; the
`score` field is the internal key `_score`. -/
structure RutaP where
  name : String
  description : String
  difficulty : ℚ
  popularity : ℚ
  points : List Punto
  distance : ℤ
  risk : ℚ
  duration : ℚ
  created_at : String
  score : ℚ
deriving DecidableEq

/-- Rendering of a rational inside the description string (Python float
formatting is abstracted; no claim depends on this text). -/
def ratRepr (q : ℚ) : String := toString q

/-- Node-creation loop of `generar_rutas_optimas`: nodes whose name is absent
or falsy (empty) are skipped. -/
def addNodesLoop (nodos : List NodeRec) (g : Graph) : Graph :=
  nodos.foldl (fun g2 n =>
    match n.name with
    | none => g2
    | some nm => if nm = "" then g2 else g2.add_node nm) g

/-- Ordered pairs `(xs[i], xs[j])` with `i < j`, in the order of the nested
`for i / for j in range(i+1, ...)` loops. -/
def pairsAfter {α : Type} : List α → List (α × α)
  | [] => []
  | x :: rest => rest.map (fun y => (x, y)) ++ pairsAfter rest

/-- Edge-creation step for one node pair: any missing coordinate or name raises
a KeyError which the per-pair handler swallows, skipping just that edge. The
edge is added directed (third positional argument `True`). -/
def edgeStep (hav : ℚ → ℚ → ℚ → ℚ → ℚ) (g : Graph) (p : NodeRec × NodeRec) : Graph :=
  match p.1.lng, p.1.lat, p.2.lng, p.2.lat, p.1.name, p.2.name with
  | some lng1, some lat1, some lng2, some lat2, some nm1, some nm2 =>
    g.add_edge nm1 nm2 (hav lng1 lat1 lng2 lat2 * 1000) true
  | _, _, _, _, _, _ => g

/-- Complete-graph construction of `generar_rutas_optimas` (nodes, then one
directed edge per index pair), parametrized by the haversine function `hav`
whose transcendental arithmetic is abstracted as a rational-valued map. -/
def buildGraph (hav : ℚ → ℚ → ℚ → ℚ → ℚ) (nodos : List NodeRec) : Graph :=
  (pairsAfter nodos).foldl (edgeStep hav) (addNodesLoop nodos Graph.empty)

/-- Lookup `next(n for n in nodos if n["name"] == name)`: scanning in order, a
node without the name key raises KeyError, exhaustion raises StopIteration. -/
def findNodeByName : List NodeRec → String → Except PyErr NodeRec
  | [], _ => .error .stopIter
  | n :: rest, nm =>
    match n.name with
    | none => .error .keyError
    | some nm1 => if nm1 = nm then .ok n else findNodeByName rest nm

/-- Waypoint-annotation loop of `generar_rutas_optimas`: builds the point dicts
of a path in order and accumulates the total risk of control nodes; any missing
required field raises a KeyError (not caught per pair). -/
def buildPuntos (nodos : List NodeRec) : List String → Except PyErr (List Punto × ℚ)
  | [] => .ok ([], 0)
  | nm :: rest =>
    match findNodeByName nodos nm with
    | .error e => .error e
    | .ok n =>
      let mk : Except PyErr (Punto × ℚ) :=
        if n.type = some "control" then
          match n.lat, n.lng, n.risk with
          | some la, some lo, some r => .ok (⟨nm, la, lo, "control", some r⟩, r)
          | _, _, _ => .error .keyError
        else
          match n.lat, n.lng with
          | some la, some lo => .ok (⟨nm, la, lo, "interest", none⟩, 0)
          | _, _ => .error .keyError
      match mk with
      | .error e => .error e
      | .ok (pt, rk) =>
        match buildPuntos nodos rest with
        | .error e => .error e
        | .ok (pts, rt) => .ok (pt :: pts, rk + rt)

/-- Candidate construction for one ordered origin-destination pair: skip equal
or unreachable pairs, derive duration and weight, filter by tolerance,
reconstruct the path, skip degenerate paths, and build the route dict. -/
def mkCandidate (nodos : List NodeRec) (dists : String → String → Option ℚ)
    (nxt : String → String → Option String)
    (velocidad dificultad experiencia alpha beta tolerancia pesoObj : ℚ)
    (nNodes : Nat) (now : String) (origen destino : String) : Except PyErr (Option RutaP) :=
  if origen = destino then .ok none
  else
    match dists origen destino with
    | none => .ok none
    | some dm =>
      if velocidad = 0 then .error .zeroDiv
      else
        let distancia_km := dm / 1000
        let duracion_horas := distancia_km / velocidad
        let peso := alpha * duracion_horas + beta * dificultad / experiencia
        if |peso - pesoObj| > tolerancia / 60 * alpha then .ok none
        else
          let ruta := reconstruct_path origen destino nxt (nNodes + 1)
          if ruta.length < 2 then .ok none
          else
            match buildPuntos nodos ruta with
            | .error e => .error e
            | .ok (pts, rt) =>
              .ok (some
                { name := "Ruta " ++ origen ++ "-" ++ destino
                  description := "De " ++ origen ++ " a " ++ destino ++ " - Duración: " ++
                    ratRepr (pyRound1 (duracion_horas * 60)) ++ " min"
                  difficulty := dificultad
                  popularity := 3
                  points := pts
                  distance := pyInt dm
                  risk := pyRound1 (rt / (ruta.length : ℚ))
                  duration := pyRound1 (duracion_horas * 60)
                  created_at := now
                  score := |peso - pesoObj| })

/-- Loop skeleton shared by the candidate loops: collect the produced values in
order, propagating the first raised exception. -/
def collectCandidates {α β : Type} (f : α → Except PyErr (Option β)) :
    List α → Except PyErr (List β)
  | [] => .ok []
  | a :: rest =>
    match f a with
    | .error e => .error e
    | .ok none => collectCandidates f rest
    | .ok (some b) =>
      match collectCandidates f rest with
      | .error e => .error e
      | .ok bs => .ok (b :: bs)

/-- All ordered pairs of the two lists, in nested-loop order. -/
def prodPairs {α : Type} (xs ys : List α) : List (α × α) :=
  xs.flatMap (fun x => ys.map (fun y => (x, y)))

/-- Ascending comparison on the internal `_score` key used by the final sort. -/
def rutaLe (a b : RutaP) : Bool := decide (a.score ≤ b.score)

/-- Body of `generar_rutas_optimas` up to and including the sort of
`rutas_posibles`; an exception anywhere is propagated to the outer handler. -/
def generarE (hav : ℚ → ℚ → ℚ → ℚ → ℚ) (now : String) (nodos : List NodeRec)
    (duracion velocidad dificultad experiencia alpha beta tolerancia : ℚ) :
    Except PyErr (List RutaP) :=
  if nodos.length < 2 then .ok []
  else if experiencia = 0 then .error .zeroDiv
  else
    let g := buildGraph hav nodos
    let m := g.floyd_warshall_with_paths
    let pesoObj := alpha * (duracion / 60) + beta * (dificultad / experiencia)
    match collectCandidates
      (fun p => mkCandidate nodos m.1 m.2 velocidad dificultad experiencia alpha beta
        tolerancia pesoObj g.nodes.length now p.1 p.2)
      (prodPairs g.nodes g.nodes) with
    | .error e => .error e
    | .ok l => .ok (pySort rutaLe l)

/-- External dict shape of a returned route: the final comprehension lists
these nine keys and omits the internal `_score`. -/
def rutaToDict (r : RutaP) : List (String × Val) :=
  [("name", .s r.name), ("description", .s r.description),
   ("difficulty", .q r.difficulty), ("popularity", .q r.popularity),
   ("points", .pts r.points), ("distance", .z r.distance),
   ("risk", .q r.risk), ("duration", .q r.duration),
   ("created_at", .s r.created_at)]

/-- Source `Helpers.generar_rutas_optimas`: the sorted candidates truncated to
ten and re-shaped, with every exception turned into an empty result by the
outer handler. -/
def generar_rutas_optimas (hav : ℚ → ℚ → ℚ → ℚ → ℚ) (now : String) (nodos : List NodeRec)
    (duracion velocidad dificultad experiencia alpha beta tolerancia : ℚ) :
    List (List (String × Val)) :=
  match generarE hav now nodos duracion velocidad dificultad experiencia alpha beta tolerancia with
  | .error _ => []
  | .ok l => (l.take 10).map rutaToDict

/-- Distance reconciliation of `handle_routes` (app.py): provisional integer
segment distances plus an optional authoritative total from the client; `none`
models an absent field and Python truthiness makes a zero total behave as
absent. Returns the final segment list and the official total distance. -/
def reconcile (edge_distances : List ℤ) (frontend_total : Option ℚ) :
    Except PyErr (List ℤ × ℤ) :=
  match frontend_total with
  | none => .ok (edge_distances, edge_distances.sum)
  | some ft =>
    if ft = 0 ∨ edge_distances = [] then .ok (edge_distances, edge_distances.sum)
    else
      let s : ℤ := edge_distances.sum
      if |(s : ℚ) - ft| > 1 then
        if (s : ℚ) = 0 then .error .zeroDiv
        else
          .ok (edge_distances.map (fun e => pyRound ((e : ℚ) * (ft / (s : ℚ)))), pyRound ft)
      else .ok (edge_distances, pyRound ft)

/-- Stored route as consulted by `suggest_routes`: only the duration and
difficulty fields are read (with defaults 0 and 3 when absent); the name tag
identifies the returned dict. -/
structure RouteRec where
  name : String
  duration : Option ℚ
  difficulty : Option ℚ
deriving DecidableEq

/-- Scored accepted route of `suggest_routes`. -/
structure ScoredRoute where
  route : RouteRec
  score : ℚ
  duration_diff : ℚ
  difficulty_diff : ℚ
deriving DecidableEq

/-- Acceptance and scoring of one stored route in `suggest_routes`; scoring an
accepted route divides by the desired duration (ZeroDivisionError when 0). -/
def scoreRouteE (dificultad_ajustada duracion_deseada dificultad_min dificultad_max
    duracion_min duracion_max : ℚ) (r : RouteRec) : Except PyErr (Option ScoredRoute) :=
  let rd := r.duration.getD 0
  let rf := r.difficulty.getD 3
  if dificultad_min ≤ rf ∧ rf ≤ dificultad_max ∧ duracion_min ≤ rd ∧ rd ≤ duracion_max then
    if duracion_deseada = 0 then .error .zeroDiv
    else
      .ok (some
        { route := r
          score := 3/5 * (1 - |rf - dificultad_ajustada| / 5) +
            2/5 * (1 - |rd - duracion_deseada| / duracion_deseada)
          duration_diff := |rd - duracion_deseada|
          difficulty_diff := |rf - dificultad_ajustada| })
  else .ok none

/-- Sort key `(-score, duration_diff)` of `suggest_routes`, as a boolean order:
descending score, ties broken by ascending duration difference. -/
def scoredLe (a b : ScoredRoute) : Bool :=
  decide (b.score < a.score) || (decide (a.score = b.score) && decide (a.duration_diff ≤ b.duration_diff))

/-- Filter-score-rank core of `suggest_routes` (app.py lines 368 to 411, after
input validation): adjust the desired difficulty by experience, clamp, build
the acceptance windows, score accepted routes, rank, return the top five. -/
def suggestE (routes : List RouteRec) (duracion_deseada dificultad_deseada experiencia : ℚ) :
    Except PyErr (List RouteRec) :=
  let dificultad_ajustada := max 1 (min 5 (dificultad_deseada * (experiencia / 3)))
  let dificultad_min := max 1 ((pyRound dificultad_ajustada : ℚ) - 1)
  let dificultad_max := min 5 ((pyRound dificultad_ajustada : ℚ) + 1)
  let margen := max 10 (duracion_deseada * (1/4))
  let duracion_min := max 1 (duracion_deseada - margen)
  let duracion_max := duracion_deseada + margen
  match collectCandidates
    (fun r => scoreRouteE dificultad_ajustada duracion_deseada dificultad_min dificultad_max
      duracion_min duracion_max r) routes with
  | .error e => .error e
  | .ok scored => .ok (((pySort scoredLe scored).take 5).map (fun x => x.route))

/-- Risk values of the control points of a path, in order (wording of the
claims: the control nodes on the path carry the risk values). -/
def controlRisks (pts : List Punto) : List ℚ :=
  pts.filterMap (fun p => if p.type = "control" then p.risk else none)

/-- Arithmetic mean of the control-node risk values, 0 when there are none
(stated from the claim wording, for comparison with the code). -/
def meanControlRisk (pts : List Punto) : ℚ :=
  if (controlRisks pts).length = 0 then 0
  else (controlRisks pts).sum / ((controlRisks pts).length : ℚ)

/-- Acceptance window exactly as the claim words it (duration window
`desiredDuration ± max(10, desiredDuration*0.25)` without any further clamp),
for comparison with the code. -/
def claimAccepts (duracion dificultad experiencia : ℚ) (r : RouteRec) : Prop :=
  let adj := max 1 (min 5 (dificultad * (experiencia / 3)))
  let m := max 10 (duracion * (1/4))
  max 1 ((pyRound adj : ℚ) - 1) ≤ r.difficulty.getD 3 ∧
  r.difficulty.getD 3 ≤ min 5 ((pyRound adj : ℚ) + 1) ∧
  duracion - m ≤ r.duration.getD 0 ∧
  r.duration.getD 0 ≤ duracion + m

/-- Acceptance window as the code implements it: the lower duration bound is
additionally clamped to at least 1. -/
def codeAccepts (duracion dificultad experiencia : ℚ) (r : RouteRec) : Prop :=
  let adj := max 1 (min 5 (dificultad * (experiencia / 3)))
  let m := max 10 (duracion * (1/4))
  max 1 ((pyRound adj : ℚ) - 1) ≤ r.difficulty.getD 3 ∧
  r.difficulty.getD 3 ≤ min 5 ((pyRound adj : ℚ) + 1) ∧
  max 1 (duracion - m) ≤ r.duration.getD 0 ∧
  r.duration.getD 0 ≤ duracion + m

/-- Score formula of the suggestion filter, as both the claim and the code
write it (0.6 and 0.4 as exact rationals). -/
def claimScore (duracion dificultad experiencia : ℚ) (r : RouteRec) : ℚ :=
  let adj := max 1 (min 5 (dificultad * (experiencia / 3)))
  3/5 * (1 - |r.difficulty.getD 3 - adj| / 5) +
    2/5 * (1 - |r.duration.getD 0 - duracion| / duracion)

/-- Constant distance function standing in for the haversine fallback in
concrete test inputs (the claims under test do not depend on its values). -/
def havOne : ℚ → ℚ → ℚ → ℚ → ℚ := fun _ _ _ _ => 1

/-- Concrete interest node used by the concrete instances. -/
def nodeA : NodeRec := ⟨some "A", some 0, some 0, some "interest", none⟩

/-- Concrete control node with risk 4 used by the concrete instances. -/
def nodeB : NodeRec := ⟨some "B", some 1, some 0, some "control", some 4⟩

/-- Concrete control node missing its risk field. -/
def nodeCbad : NodeRec := ⟨some "C", some 2, some 0, some "control", none⟩

/-- Total weight of a walk continuing from `u` through the listed node names,
`none` when some hop is not an edge of the graph. -/
def chainWeight (g : Graph) : String → List String → Option ℚ
  | _, [] => some 0
  | u, y :: rest =>
    match dictGet y (g.nbrs u) with
    | none => none
    | some w => (chainWeight g y rest).map (fun c => w + c)

/-- There is a walk from `S` to `v` of total weight `c`. -/
def Reach (g : Graph) (S v : String) (c : ℚ) : Prop :=
  ∃ rest : List String, chainWeight g S rest = some c ∧ (S :: rest).getLast? = some v

/-- Cost of one node in the termination measure of the dijkstra loop: a node
still awaiting processing (infinite recorded distance, or an up-to-date heap
entry) pays one plus its out-degree, a processed one pays nothing. -/
def nodeCost (g : Graph) (dist : List (String × Option ℚ)) (pq : List (ℚ × String))
    (v : String) : Nat :=
  match dictGet v dist with
  | none => 0
  | some none => 1 + (g.nbrs v).length
  | some (some dv) => if (dv, v) ∈ pq then 1 + (g.nbrs v).length else 0

/-- Termination measure of the dijkstra loop: heap size plus pending node
costs; it strictly decreases at every loop iteration. -/
def phi (g : Graph) (st : DState) : Nat :=
  st.pq.length + (g.nodes.map (nodeCost g st.dist st.pq)).sum

/-- Loop invariant of `Graph.dijkstra` started at `start`: the distances dict
keeps the graph's keys; every heap entry points at a key whose recorded
distance is finite and at most the entry's value; at most one heap entry per
node sits at the node's current distance; a finite node without an up-to-date
heap entry is below every heap entry (it is settled); every finite node either
still has its up-to-date entry pending or has all its outgoing edges relaxed;
every finite recorded distance is the weight of a walk from the start; and the
start's recorded distance is finite and at most zero. -/
structure DInv (g : Graph) (start : String) (st : DState) : Prop where
  keys : st.dist.map Prod.fst = g.nodes
  entry_mem : ∀ e ∈ st.pq, ∃ du : ℚ, dictGet e.2 st.dist = some (some du) ∧ du ≤ e.1
  once : ∀ u du, dictGet u st.dist = some (some du) →
    (st.pq.filter (fun e => e = (du, u))).length ≤ 1
  settled : ∀ v dv, dictGet v st.dist = some (some dv) → (dv, v) ∉ st.pq →
    ∀ e ∈ st.pq, dv ≤ e.1
  relaxed : ∀ u du, dictGet u st.dist = some (some du) →
    (du, u) ∈ st.pq ∨
      ∀ p ∈ g.nbrs u, ∃ dy, dictGet p.1 st.dist = some (some dy) ∧ dy ≤ du + p.2
  sound : ∀ u du, dictGet u st.dist = some (some du) → Reach g start u du
  base : ∃ ds, dictGet start st.dist = some (some ds) ∧ ds ≤ 0

/-- Concrete two-node graph with one directed unit edge, used to instantiate
the dijkstra statement. -/
def gAB : Graph := ((Graph.empty.add_node "A").add_node "B").add_edge "A" "B" 1 true

/-! Theorems. -/

/-- C3 counterexample: with segments `[5]` and a supplied authoritative total
of `0`, the claim mandates rescaled segments and an official distance of
`round(0) = 0`, but Python truthiness treats the zero total as absent: the
code leaves the segments unchanged and reports the unscaled sum `5`. -/
theorem reconcile_zero_total_cex :
    reconcile [5] (some 0) = .ok ([5], 5) ∧ pyRound 0 = 0 ∧ (5 : ℤ) ≠ 0 := by
  decide

/-- C3 as amended: for a nonempty segment list, a supplied nonzero total
within 1 meter of the segment sum leaves the segments unchanged with official
distance `round(total)`; a supplied nonzero total farther than 1 meter from a
nonzero segment sum rescales every segment `i` to
`round(segments[i] * total / sum)` with official distance `round(total)`; an
absent total or a total of exactly `0` (treated as absent by truthiness)
leaves the segments unchanged with the unscaled sum as official distance. -/
theorem reconcile_spec (segs : List ℤ) (t : ℚ) (hne : segs ≠ []) :
    (t ≠ 0 → |((segs.sum : ℤ) : ℚ) - t| ≤ 1 → reconcile segs (some t) = .ok (segs, pyRound t)) ∧
    (t ≠ 0 → ((segs.sum : ℤ) : ℚ) ≠ 0 → |((segs.sum : ℤ) : ℚ) - t| > 1 →
      reconcile segs (some t) =
        .ok (segs.map (fun e => pyRound ((e : ℚ) * (t / ((segs.sum : ℤ) : ℚ)))), pyRound t)) ∧
    reconcile segs none = .ok (segs, segs.sum) ∧
    reconcile segs (some 0) = .ok (segs, segs.sum) := by
  refine ⟨?_, ?_, rfl, ?_⟩
  · intro ht hle
    simp only [reconcile]
    rw [if_neg (by simp [ht, hne]), if_neg (by simpa using hle)]
  · intro ht hs hgt
    simp only [reconcile]
    rw [if_neg (by simp [ht, hne]), if_pos hgt, if_neg hs]
  · simp only [reconcile]
    rw [if_pos (Or.inl trivial)]

/-- C3 witness: a rescaling run with total 60 against sum 30. -/
theorem reconcile_spec_witness :
    reconcile [10, 20] (some 60) =
      .ok ([10, 20].map (fun e => pyRound ((e : ℚ) * (60 / ((([10, 20].sum : ℤ)) : ℚ)))),
        pyRound 60) :=
  (reconcile_spec [10, 20] 60 (by decide)).2.1 (by decide) (by decide) (by decide)

/-- C4: the claimed division-by-zero guard does not exist. With a single
zero-length segment and a supplied total of 100 the difference exceeds the
1-meter tolerance, so the code computes `frontend_total / edges_sum` with
`edges_sum == 0` and raises ZeroDivisionError (surfaced as a 500 response by
the blanket handler) instead of using the authoritative total as-is. -/
theorem reconcile_zero_sum_division_bug :
    reconcile [0] (some 100) = .error .zeroDiv ∧
    reconcile [0, 0] (some 7) = .error .zeroDiv := by
  decide

/-- Loop lemma: when no element raises, the collected results are the
filter-mapped successes. -/
theorem collectCandidates_eq_filterMap {α β : Type} (f : α → Except PyErr (Option β))
    (fr : α → Option β) (l : List α) (h : ∀ a ∈ l, f a = .ok (fr a)) :
    collectCandidates f l = .ok (l.filterMap fr) := by
  induction l with
  | nil => rfl
  | cons a rest ih =>
    have ha := h a (List.mem_cons_self a rest)
    have hrest := ih (fun b hb => h b (List.mem_cons_of_mem a hb))
    simp only [collectCandidates, ha, List.filterMap_cons]
    cases hfa : fr a with
    | none => simpa [hfa] using hrest
    | some b => simp [hfa, hrest]

/-- Loop lemma: every collected result comes from an element that produced it. -/
theorem collectCandidates_mem {α β : Type} (f : α → Except PyErr (Option β)) :
    ∀ (l : List α) (bs : List β), collectCandidates f l = .ok bs →
      ∀ b ∈ bs, ∃ a ∈ l, f a = .ok (some b) := by
  intro l
  induction l with
  | nil => intro bs h b hb; cases h; cases hb
  | cons a rest ih =>
    intro bs h b hb
    simp only [collectCandidates] at h
    cases hfa : f a with
    | error e => rw [hfa] at h; cases h
    | ok v =>
      rw [hfa] at h
      cases v with
      | none =>
        obtain ⟨a2, ha2, hfa2⟩ := ih bs h b hb
        exact ⟨a2, List.mem_cons_of_mem a ha2, hfa2⟩
      | some b0 =>
        cases hrest : collectCandidates f rest with
        | error e => rw [hrest] at h; cases h
        | ok bs0 =>
          rw [hrest] at h
          cases h
          rcases List.mem_cons.mp hb with hb0 | hbs0
          · exact ⟨a, List.mem_cons_self a rest, by rw [hfa, hb0]⟩
          · obtain ⟨a2, ha2, hfa2⟩ := ih bs0 hrest b hbs0
            exact ⟨a2, List.mem_cons_of_mem a ha2, hfa2⟩

/-- Transitivity of the suggestion sort key. -/
theorem scoredLe_trans (a b c : ScoredRoute) (hab : scoredLe a b = true)
    (hbc : scoredLe b c = true) : scoredLe a c = true := by
  simp only [scoredLe, Bool.or_eq_true, Bool.and_eq_true, decide_eq_true_eq] at *
  rcases hab with h1 | ⟨h1, h2⟩ <;> rcases hbc with h3 | ⟨h3, h4⟩
  · exact Or.inl (h3.trans h1)
  · exact Or.inl (h3 ▸ h1)
  · exact Or.inl (h1 ▸ h3)
  · exact Or.inr ⟨h1.trans h3, h2.trans h4⟩

/-- Totality of the suggestion sort key. -/
theorem scoredLe_total (a b : ScoredRoute) : (scoredLe a b || scoredLe b a) = true := by
  simp only [scoredLe, Bool.or_eq_true, Bool.and_eq_true, decide_eq_true_eq]
  rcases lt_trichotomy a.score b.score with h | h | h
  · exact Or.inr (Or.inl h)
  · rcases le_total a.duration_diff b.duration_diff with h2 | h2
    · exact Or.inl (Or.inr ⟨h, h2⟩)
    · exact Or.inr (Or.inr ⟨h.symm, h2⟩)
  · exact Or.inl (Or.inl h)

/-- The boolean sort key agrees with its propositional reading. -/
theorem scoredLe_iff (a b : ScoredRoute) :
    scoredLe a b = true ↔
      (b.score < a.score ∨ (a.score = b.score ∧ a.duration_diff ≤ b.duration_diff)) := by
  simp [scoredLe]

/-- Elements of the take are related to elements of the drop in a pairwise
sorted list. -/
theorem pairwise_take_drop {α : Type} {R : α → α → Prop} {l : List α} (h : List.Pairwise R l)
    (n : Nat) : ∀ a ∈ l.take n, ∀ b ∈ l.drop n, R a b := by
  have := List.take_append_drop n l
  rw [← this] at h
  exact (List.pairwise_append.mp h).2.2

/-- C10 counterexample: desired duration 8, difficulty 3, experience 3, and a
stored route of difficulty 3 with duration one half minute. The claim window
`8 ± max(10, 2) = [-2, 18]` accepts it (so the claim returns it as the single
candidate), but the code clamps the lower duration bound to
`max(1, 8 - 10) = 1` and rejects it, returning no routes. -/
theorem suggest_duration_floor_cex :
    claimAccepts 8 3 3 ⟨"r1", some (1/2), some 3⟩ ∧
    suggestE [⟨"r1", some (1/2), some 3⟩] 8 3 3 = .ok [] := by
  constructor
  · refine ⟨by decide, by decide, by decide, by decide⟩
  · decide

/-- Permutation property of stable insertion. -/
theorem insertSorted_perm {α : Type} (le : α → α → Bool) (a : α) (l : List α) :
    (insertSorted le a l).Perm (a :: l) := by
  induction l with
  | nil => exact List.Perm.refl _
  | cons b rest ih =>
    simp only [insertSorted]
    split
    · exact ((ih.cons b).trans (List.Perm.swap a b rest))
    · exact List.Perm.refl _

/-- Membership in a stable insertion. -/
theorem mem_insertSorted {α : Type} (le : α → α → Bool) (a x : α) (l : List α) :
    x ∈ insertSorted le a l ↔ x = a ∨ x ∈ l := by
  rw [(insertSorted_perm le a l).mem_iff]
  simp

/-- Stable insertion preserves sortedness. -/
theorem insertSorted_sorted {α : Type} (le : α → α → Bool)
    (htrans : ∀ a b c, le a b = true → le b c = true → le a c = true)
    (htotal : ∀ a b, (le a b || le b a) = true)
    (a : α) (l : List α) (h : List.Pairwise (fun x y => le x y = true) l) :
    List.Pairwise (fun x y => le x y = true) (insertSorted le a l) := by
  induction l with
  | nil => simp [insertSorted]
  | cons b rest ih =>
    rcases List.pairwise_cons.mp h with ⟨hb, hrest⟩
    simp only [insertSorted]
    split
    · refine List.pairwise_cons.mpr ⟨?_, ih hrest⟩
      intro x hx
      rcases (mem_insertSorted le a x rest).mp hx with rfl | hx2
      · assumption
      · exact hb x hx2
    · refine List.pairwise_cons.mpr ⟨?_, h⟩
      intro x hx
      have hab : le a b = true := by
        have := htotal b a
        rcases Bool.or_eq_true_iff.mp this with h1 | h1
        · exact absurd h1 (by assumption)
        · exact h1
      rcases List.mem_cons.mp hx with rfl | hx2
      · exact hab
      · exact htrans a b x hab (hb x hx2)

/-- The embedded sort is a permutation of its input. -/
theorem pySort_perm {α : Type} (le : α → α → Bool) (l : List α) :
    (pySort le l).Perm l := by
  have main : ∀ (l acc : List α),
      (List.foldl (fun acc a => insertSorted le a acc) acc l).Perm (acc ++ l) := by
    intro l
    induction l with
    | nil => intro acc; simp
    | cons a rest ih =>
      intro acc
      have h1 := ih (insertSorted le a acc)
      have h2 : (insertSorted le a acc ++ rest).Perm (acc ++ a :: rest) := by
        have := (insertSorted_perm le a acc).append_right rest
        exact this.trans (List.perm_middle.symm)
      simpa [List.foldl_cons] using h1.trans h2
  simpa using main l []

/-- The embedded sort sorts, for a total transitive boolean comparison. -/
theorem pySort_sorted {α : Type} (le : α → α → Bool)
    (htrans : ∀ a b c, le a b = true → le b c = true → le a c = true)
    (htotal : ∀ a b, (le a b || le b a) = true) (l : List α) :
    List.Pairwise (fun x y => le x y = true) (pySort le l) := by
  have main : ∀ (l acc : List α), List.Pairwise (fun x y => le x y = true) acc →
      List.Pairwise (fun x y => le x y = true)
        (List.foldl (fun acc a => insertSorted le a acc) acc l) := by
    intro l
    induction l with
    | nil => intro acc h; simpa using h
    | cons a rest ih =>
      intro acc h
      exact ih _ (insertSorted_sorted le htrans htotal a acc h)
  exact main l [] (List.Pairwise.nil)

/-- Existence side of membership in a guarded filterMap. -/
theorem mem_filterMap_if {α β : Type} (p : α → Prop) [DecidablePred p] (f : α → β)
    (l : List α) (b : β) :
    b ∈ l.filterMap (fun a => if p a then some (f a) else none) ↔
      ∃ a ∈ l, p a ∧ b = f a := by
  constructor
  · intro hb
    obtain ⟨a, ha, hfa⟩ := List.mem_filterMap.mp hb
    by_cases hp : p a
    · rw [if_pos hp] at hfa
      cases hfa
      exact ⟨a, ha, hp, rfl⟩
    · rw [if_neg hp] at hfa
      cases hfa
  · rintro ⟨a, ha, hp, rfl⟩
    exact List.mem_filterMap.mpr ⟨a, ha, by rw [if_pos hp]⟩

/-- C10 as amended: the Route Suggestion Filter accepts a stored route exactly
when its difficulty lies within `[round(adjustedDifficulty)-1,
round(adjustedDifficulty)+1]` clamped to `[1,5]` and its duration lies within
`[max(1, desiredDuration - m), desiredDuration + m]` for
`m = max(10, desiredDuration*0.25)` — the lower duration bound is additionally
clamped to at least 1 minute; accepted routes are scored by
`0.6*(1 - |difficulty - adjustedDifficulty|/5) + 0.4*(1 - |duration -
desiredDuration|/desiredDuration)`, ranked by descending score with ties broken
by ascending duration difference, and at most the top 5 are returned. -/
theorem suggest_filter_spec (routes : List RouteRec) (dd df ex : ℚ) (hd : dd ≠ 0) :
    ∃ l : List ScoredRoute,
      suggestE routes dd df ex = .ok ((l.take 5).map (fun x => x.route)) ∧
      ((l.take 5).map (fun x => x.route)).length ≤ 5 ∧
      (∀ s ∈ l, s.route ∈ routes ∧ codeAccepts dd df ex s.route ∧
        s.score = claimScore dd df ex s.route ∧
        s.duration_diff = |s.route.duration.getD 0 - dd|) ∧
      (∀ r ∈ routes, codeAccepts dd df ex r → ∃ s ∈ l, s.route = r) ∧
      List.Pairwise
        (fun a b => b.score < a.score ∨ (a.score = b.score ∧ a.duration_diff ≤ b.duration_diff)) l ∧
      (∀ a ∈ l.take 5, ∀ b ∈ l.drop 5,
        b.score < a.score ∨ (a.score = b.score ∧ a.duration_diff ≤ b.duration_diff)) := by
  classical
  set adj := max 1 (min 5 (df * (ex / 3))) with hadj
  set dmin := max 1 ((pyRound adj : ℚ) - 1) with hdmin
  set dmax := min 5 ((pyRound adj : ℚ) + 1) with hdmax
  set m := max 10 (dd * (1/4)) with hm
  set umin := max 1 (dd - m) with humin
  set umax := dd + m with humax
  have haccept : ∀ r : RouteRec, (dmin ≤ r.difficulty.getD 3 ∧ r.difficulty.getD 3 ≤ dmax ∧
      umin ≤ r.duration.getD 0 ∧ r.duration.getD 0 ≤ umax) ↔ codeAccepts dd df ex r := by
    intro r
    simp only [codeAccepts, ← hadj, ← hdmin, ← hdmax, ← hm, ← humin, ← humax]
  have hscore : ∀ r : RouteRec,
      scoreRouteE adj dd dmin dmax umin umax r =
        .ok (if dmin ≤ r.difficulty.getD 3 ∧ r.difficulty.getD 3 ≤ dmax ∧
            umin ≤ r.duration.getD 0 ∧ r.duration.getD 0 ≤ umax then
          some { route := r
                 score := 3/5 * (1 - |r.difficulty.getD 3 - adj| / 5) +
                   2/5 * (1 - |r.duration.getD 0 - dd| / dd)
                 duration_diff := |r.duration.getD 0 - dd|
                 difficulty_diff := |r.difficulty.getD 3 - adj| }
        else none) := by
    intro r
    simp only [scoreRouteE, if_neg hd]
    split <;> rfl
  have hcollect : collectCandidates (fun r => scoreRouteE adj dd dmin dmax umin umax r) routes =
      .ok (routes.filterMap (fun r =>
        if dmin ≤ r.difficulty.getD 3 ∧ r.difficulty.getD 3 ≤ dmax ∧
            umin ≤ r.duration.getD 0 ∧ r.duration.getD 0 ≤ umax then
          some { route := r
                 score := 3/5 * (1 - |r.difficulty.getD 3 - adj| / 5) +
                   2/5 * (1 - |r.duration.getD 0 - dd| / dd)
                 duration_diff := |r.duration.getD 0 - dd|
                 difficulty_diff := |r.difficulty.getD 3 - adj| }
        else none)) :=
    collectCandidates_eq_filterMap _ _ routes (fun a _ => hscore a)
  refine ⟨pySort scoredLe (routes.filterMap (fun r =>
      if dmin ≤ r.difficulty.getD 3 ∧ r.difficulty.getD 3 ≤ dmax ∧
          umin ≤ r.duration.getD 0 ∧ r.duration.getD 0 ≤ umax then
        some { route := r
               score := 3/5 * (1 - |r.difficulty.getD 3 - adj| / 5) +
                 2/5 * (1 - |r.duration.getD 0 - dd| / dd)
               duration_diff := |r.duration.getD 0 - dd|
               difficulty_diff := |r.difficulty.getD 3 - adj| }
      else none)), ?_, ?_, ?_, ?_, ?_, ?_⟩
  · simp only [suggestE, ← hadj, ← hdmin, ← hdmax, ← hm, ← humin, ← humax, hcollect]
  · simp [List.length_take]
  · intro s hs
    have hmem := (pySort_perm scoredLe _).mem_iff.mp hs
    rw [mem_filterMap_if] at hmem
    obtain ⟨r, hr, hp, rfl⟩ := hmem
    exact ⟨hr, (haccept r).mp hp, by simp [claimScore, ← hadj], rfl⟩
  · intro r hr hacc
    refine ⟨⟨r, 3/5 * (1 - |r.difficulty.getD 3 - adj| / 5) +
        2/5 * (1 - |r.duration.getD 0 - dd| / dd), |r.duration.getD 0 - dd|,
        |r.difficulty.getD 3 - adj|⟩, ?_, rfl⟩
    apply (pySort_perm scoredLe _).mem_iff.mpr
    apply List.mem_filterMap.mpr
    exact ⟨r, hr, by rw [if_pos ((haccept r).mpr hacc)]⟩
  · exact (pySort_sorted scoredLe scoredLe_trans scoredLe_total _).imp
      (fun h => (scoredLe_iff _ _).mp h)
  · exact pairwise_take_drop
      ((pySort_sorted scoredLe scoredLe_trans scoredLe_total _).imp
        (fun h => (scoredLe_iff _ _).mp h)) 5

/-- C10 witness: a concrete run with one in-window route. -/
theorem suggest_filter_spec_witness :
    (8 : ℚ) ≠ 0 ∧
    ∃ l : List ScoredRoute,
      suggestE [⟨"r2", some 8, some 3⟩] 8 3 3 = .ok ((l.take 5).map (fun x => x.route)) ∧
      ((l.take 5).map (fun x => x.route)).length ≤ 5 ∧
      (∀ s ∈ l, s.route ∈ [⟨"r2", some 8, some 3⟩] ∧ codeAccepts 8 3 3 s.route ∧
        s.score = claimScore 8 3 3 s.route ∧
        s.duration_diff = |s.route.duration.getD 0 - 8|) ∧
      (∀ r ∈ [(⟨"r2", some 8, some 3⟩ : RouteRec)], codeAccepts 8 3 3 r → ∃ s ∈ l, s.route = r) ∧
      List.Pairwise
        (fun a b => b.score < a.score ∨ (a.score = b.score ∧ a.duration_diff ≤ b.duration_diff)) l ∧
      (∀ a ∈ l.take 5, ∀ b ∈ l.drop 5,
        b.score < a.score ∨ (a.score = b.score ∧ a.duration_diff ≤ b.duration_diff)) :=
  ⟨by decide, suggest_filter_spec [⟨"r2", some 8, some 3⟩] 8 3 3 (by decide)⟩

/-- Transitivity of the candidate sort key. -/
theorem rutaLe_trans (a b c : RutaP) (hab : rutaLe a b = true) (hbc : rutaLe b c = true) :
    rutaLe a c = true := by
  simp only [rutaLe, decide_eq_true_eq] at *
  exact hab.trans hbc

/-- Totality of the candidate sort key. -/
theorem rutaLe_total (a b : RutaP) : (rutaLe a b || rutaLe b a) = true := by
  simp only [rutaLe, Bool.or_eq_true, decide_eq_true_eq]
  exact le_total a.score b.score

/-- Every successful run of the search body yields an empty or sorted list. -/
theorem generarE_ok_shape (hav : ℚ → ℚ → ℚ → ℚ → ℚ) (now : String) (nodos : List NodeRec)
    (d v df ex al be tol : ℚ) (l : List RutaP)
    (h : generarE hav now nodos d v df ex al be tol = .ok l) :
    l = [] ∨ ∃ l0, l = pySort rutaLe l0 := by
  simp only [generarE] at h
  split at h
  · cases h
    exact Or.inl rfl
  · split at h
    · cases h
    · split at h
      · cases h
      · cases h
        exact Or.inr ⟨_, rfl⟩

/-- No internal score key in the externally visible route shape. -/
theorem rutaToDict_no_score (r : RutaP) : dictGet "_score" (rutaToDict r) = none := by
  rfl

/-- C6: Route Candidate Search returns at most 10 routes; the returned list is
the sorted candidate list truncated to 10 and re-shaped, the candidates are in
ascending order of the internal deviation score, every returned candidate's
deviation is at most every surviving-but-not-returned candidate's deviation,
and no returned route dict contains the `_score` key. -/
theorem generar_top10_spec (hav : ℚ → ℚ → ℚ → ℚ → ℚ) (now : String) (nodos : List NodeRec)
    (d v df ex al be tol : ℚ) :
    (generar_rutas_optimas hav now nodos d v df ex al be tol).length ≤ 10 ∧
    (∀ r ∈ generar_rutas_optimas hav now nodos d v df ex al be tol,
      dictGet "_score" r = none) ∧
    (∀ l, generarE hav now nodos d v df ex al be tol = .ok l →
      generar_rutas_optimas hav now nodos d v df ex al be tol = (l.take 10).map rutaToDict ∧
      List.Pairwise (fun a b : RutaP => a.score ≤ b.score) l ∧
      (∀ a ∈ l.take 10, ∀ b ∈ l.drop 10, a.score ≤ b.score)) := by
  refine ⟨?_, ?_, ?_⟩
  · simp only [generar_rutas_optimas]
    cases hE : generarE hav now nodos d v df ex al be tol with
    | error e => simp
    | ok l =>
      simp only [List.length_map, List.length_take]
      omega
  · intro r hr
    simp only [generar_rutas_optimas] at hr
    cases hE : generarE hav now nodos d v df ex al be tol with
    | error e => rw [hE] at hr; cases hr
    | ok l =>
      rw [hE] at hr
      obtain ⟨rp, _, rfl⟩ := List.mem_map.mp hr
      exact rutaToDict_no_score rp
  · intro l hE
    have hsorted : List.Pairwise (fun a b : RutaP => a.score ≤ b.score) l := by
      rcases generarE_ok_shape hav now nodos d v df ex al be tol l hE with rfl | ⟨l0, rfl⟩
      · exact List.Pairwise.nil
      · exact (pySort_sorted rutaLe rutaLe_trans rutaLe_total l0).imp
          (fun h => by simpa [rutaLe] using h)
    refine ⟨by simp [generar_rutas_optimas, hE], hsorted, pairwise_take_drop hsorted 10⟩

/-- C6 witness: the concrete two-node run produces one candidate and the
claimed shape. -/
theorem generar_top10_spec_witness :
    ∃ l : List RutaP,
      generarE havOne "T" [nodeA, nodeB] 60 1 3 3 1 1 6 = .ok l ∧
      generar_rutas_optimas havOne "T" [nodeA, nodeB] 60 1 3 3 1 1 6 =
        (l.take 10).map rutaToDict ∧
      List.Pairwise (fun a b : RutaP => a.score ≤ b.score) l ∧
      (∀ a ∈ l.take 10, ∀ b ∈ l.drop 10, a.score ≤ b.score) :=
  ⟨[{ name := "Ruta A-B"
      description := "De A a B - Duración: 60 min"
      difficulty := 3
      popularity := 3
      points := [⟨"A", 0, 0, "interest", none⟩, ⟨"B", 1, 0, "control", some 4⟩]
      distance := 1000
      risk := 2
      duration := 60
      created_at := "T"
      score := 0 }], by decide,
    (generar_top10_spec havOne "T" [nodeA, nodeB] 60 1 3 3 1 1 6).2.2
      [{ name := "Ruta A-B"
         description := "De A a B - Duración: 60 min"
         difficulty := 3
         popularity := 3
         points := [⟨"A", 0, 0, "interest", none⟩, ⟨"B", 1, 0, "control", some 4⟩]
         distance := 1000
         risk := 2
         duration := 60
         created_at := "T"
         score := 0 }] (by decide)⟩

/-- The waypoint-annotation loop produces one point per path node and
accumulates exactly the risk values of the control points it emits. -/
theorem buildPuntos_spec (nodos : List NodeRec) :
    ∀ (names : List String) (pts : List Punto) (rt : ℚ),
      buildPuntos nodos names = .ok (pts, rt) →
      pts.length = names.length ∧ rt = (controlRisks pts).sum := by
  intro names
  induction names with
  | nil =>
    intro pts rt h
    cases h
    simp [controlRisks]
  | cons nm rest ih =>
    intro pts rt h
    simp only [buildPuntos] at h
    cases hfind : findNodeByName nodos nm with
    | error e => simp only [hfind] at h; cases h
    | ok n =>
      simp only [hfind] at h
      by_cases htype : n.type = some "control"
      · simp only [if_pos htype] at h
        cases hla : n.lat with
        | none => simp only [hla] at h; cases h
        | some la =>
          cases hlo : n.lng with
          | none => simp only [hla, hlo] at h; cases h
          | some lo =>
            cases hrk : n.risk with
            | none => simp only [hla, hlo, hrk] at h; cases h
            | some rk =>
              simp only [hla, hlo, hrk] at h
              cases hrest : buildPuntos nodos rest with
              | error e => simp only [hrest] at h; cases h
              | ok pr =>
                simp only [hrest] at h
                injection h with h2
                obtain ⟨h3, h4⟩ := Prod.mk.inj h2
                subst h3
                subst h4
                obtain ⟨ih1, ih2⟩ := ih pr.1 pr.2 (by rw [hrest])
                constructor
                · simp [ih1]
                · simp [controlRisks, List.filterMap_cons, ih2]
      · simp only [if_neg htype] at h
        cases hla : n.lat with
        | none => simp only [hla] at h; cases h
        | some la =>
          cases hlo : n.lng with
          | none => simp only [hla, hlo] at h; cases h
          | some lo =>
            simp only [hla, hlo] at h
            cases hrest : buildPuntos nodos rest with
            | error e => simp only [hrest] at h; cases h
            | ok pr =>
              simp only [hrest] at h
              injection h with h2
              obtain ⟨h3, h4⟩ := Prod.mk.inj h2
              subst h3
              subst h4
              obtain ⟨ih1, ih2⟩ := ih pr.1 pr.2 (by rw [hrest])
              constructor
              · simp [ih1]
              · simp [controlRisks, List.filterMap_cons, ih2]

/-- A produced candidate has at least two points and carries the risk value
the code computes: the control-risk sum divided by the path length, rounded
to one decimal. -/
theorem mkCandidate_risk (nodos : List NodeRec) (dists : String → String → Option ℚ)
    (nxt : String → String → Option String) (v df ex al be tol pobj : ℚ) (nn : Nat)
    (now origen destino : String) (rp : RutaP)
    (h : mkCandidate nodos dists nxt v df ex al be tol pobj nn now origen destino =
      .ok (some rp)) :
    2 ≤ rp.points.length ∧
    rp.risk = pyRound1 ((controlRisks rp.points).sum / (rp.points.length : ℚ)) := by
  simp only [mkCandidate] at h
  split at h
  · cases h
  · cases hdm : dists origen destino with
    | none => simp only [hdm] at h; cases h
    | some dm =>
      simp only [hdm] at h
      split at h
      · cases h
      · split at h
        · cases h
        · split at h
          · cases h
          · cases hbp : buildPuntos nodos
              (reconstruct_path origen destino nxt (nn + 1)) with
            | error e => simp only [hbp] at h; cases h
            | ok pr =>
              simp only [hbp] at h
              have hge : ¬ (reconstruct_path origen destino nxt (nn + 1)).length < 2 := by
                assumption
              obtain ⟨hlen, hsum⟩ := buildPuntos_spec nodos _ pr.1 pr.2 (by rw [hbp])
              injection h with h2
              injection h2 with h3
              subst h3
              constructor
              · simpa [hlen] using Nat.le_of_not_lt hge
              · simp only [hsum, hlen]

/-- Every candidate of a successful search body run was produced by
`mkCandidate` for some ordered pair. -/
theorem generarE_mem_candidate (hav : ℚ → ℚ → ℚ → ℚ → ℚ) (now : String)
    (nodos : List NodeRec) (d v df ex al be tol : ℚ) (l : List RutaP)
    (hE : generarE hav now nodos d v df ex al be tol = .ok l) (rp : RutaP) (hrp : rp ∈ l) :
    ∃ (dists : String → String → Option ℚ) (nxt : String → String → Option String)
      (pobj : ℚ) (nn : Nat) (o dst : String),
      mkCandidate nodos dists nxt v df ex al be tol pobj nn now o dst = .ok (some rp) := by
  simp only [generarE] at hE
  split at hE
  · cases hE
    cases hrp
  · split at hE
    · cases hE
    · cases hc : collectCandidates
        (fun p => mkCandidate nodos (buildGraph hav nodos).floyd_warshall_with_paths.1
          (buildGraph hav nodos).floyd_warshall_with_paths.2 v df ex al be tol
          (al * (d / 60) + be * (df / ex)) (buildGraph hav nodos).nodes.length now p.1 p.2)
        (prodPairs (buildGraph hav nodos).nodes (buildGraph hav nodos).nodes) with
      | error e => rw [hc] at hE; cases hE
      | ok cands =>
        rw [hc] at hE
        cases hE
        have hmem : rp ∈ cands := (pySort_perm rutaLe cands).mem_iff.mp hrp
        obtain ⟨p, _, hp⟩ := collectCandidates_mem _ _ _ hc rp hmem
        exact ⟨_, _, _, _, p.1, p.2, hp⟩

/-- C5 counterexample: on nodes A (interest) and B (control, risk 4) the only
candidate path is [A, B]; the arithmetic mean of the control-node risks on the
path is 4, but the code divides the control-risk sum by the number of all path
nodes and reports risk 2. -/
theorem route_risk_mean_cex :
    (generar_rutas_optimas havOne "T" [nodeA, nodeB] 60 1 3 3 1 1 6).map
      (fun r => dictGet "risk" r) = [some (.q 2)] ∧
    (generar_rutas_optimas havOne "T" [nodeA, nodeB] 60 1 3 3 1 1 6).map
      (fun r => dictGet "points" r) =
      [some (.pts [⟨"A", 0, 0, "interest", none⟩, ⟨"B", 1, 0, "control", some 4⟩])] ∧
    meanControlRisk [⟨"A", 0, 0, "interest", none⟩, ⟨"B", 1, 0, "control", some 4⟩] = 4 ∧
    (2 : ℚ) ≠ 4 := by
  refine ⟨by decide, by decide, by decide, by decide⟩

/-- C5 as amended: every returned route reports as risk the sum of the risk
values of the control nodes on its path divided by the total number of path
nodes (controls and interests alike), rounded to one decimal; when the path
has no control nodes this value is 0. -/
theorem route_risk_formula_spec (hav : ℚ → ℚ → ℚ → ℚ → ℚ) (now : String)
    (nodos : List NodeRec) (d v df ex al be tol : ℚ) :
    ∀ r ∈ generar_rutas_optimas hav now nodos d v df ex al be tol,
      ∃ pts : List Punto,
        dictGet "points" r = some (.pts pts) ∧ 2 ≤ pts.length ∧
        dictGet "risk" r = some (.q (pyRound1 ((controlRisks pts).sum / (pts.length : ℚ)))) ∧
        (controlRisks pts = [] → dictGet "risk" r = some (.q 0)) := by
  intro r hr
  simp only [generar_rutas_optimas] at hr
  cases hE : generarE hav now nodos d v df ex al be tol with
  | error e => rw [hE] at hr; cases hr
  | ok l =>
    rw [hE] at hr
    obtain ⟨rp, hrptake, rfl⟩ := List.mem_map.mp hr
    have hrpl : rp ∈ l := List.mem_of_mem_take hrptake
    obtain ⟨dists, nxt, pobj, nn, o, dst, hmk⟩ :=
      generarE_mem_candidate hav now nodos d v df ex al be tol l hE rp hrpl
    obtain ⟨hlen, hrisk⟩ := mkCandidate_risk nodos dists nxt v df ex al be tol pobj nn
      now o dst rp hmk
    refine ⟨rp.points, rfl, hlen,
      by rw [show dictGet "risk" (rutaToDict rp) = some (.q rp.risk) from rfl, hrisk], ?_⟩
    intro hnone
    have : rp.risk = 0 := by
      rw [hrisk, hnone]
      norm_num [pyRound1, pyRound]
    rw [show dictGet "risk" (rutaToDict rp) = some (.q rp.risk) from rfl, this]

/-- C5 witness: the concrete two-node run satisfies the amended description
with path [A, B], control-risk sum 4, path length 2 and reported risk 2. -/
theorem route_risk_formula_spec_witness :
    ∃ pts : List Punto,
      dictGet "points" (rutaToDict
        { name := "Ruta A-B"
          description := "De A a B - Duración: 60 min"
          difficulty := 3
          popularity := 3
          points := [⟨"A", 0, 0, "interest", none⟩, ⟨"B", 1, 0, "control", some 4⟩]
          distance := 1000
          risk := 2
          duration := 60
          created_at := "T"
          score := 0 }) = some (.pts pts) ∧ 2 ≤ pts.length ∧
      dictGet "risk" (rutaToDict
        { name := "Ruta A-B"
          description := "De A a B - Duración: 60 min"
          difficulty := 3
          popularity := 3
          points := [⟨"A", 0, 0, "interest", none⟩, ⟨"B", 1, 0, "control", some 4⟩]
          distance := 1000
          risk := 2
          duration := 60
          created_at := "T"
          score := 0 }) =
        some (.q (pyRound1 ((controlRisks pts).sum / (pts.length : ℚ)))) ∧
      (controlRisks pts = [] →
        dictGet "risk" (rutaToDict
          { name := "Ruta A-B"
            description := "De A a B - Duración: 60 min"
            difficulty := 3
            popularity := 3
            points := [⟨"A", 0, 0, "interest", none⟩, ⟨"B", 1, 0, "control", some 4⟩]
            distance := 1000
            risk := 2
            duration := 60
            created_at := "T"
            score := 0 }) = some (.q 0)) :=
  route_risk_formula_spec havOne "T" [nodeA, nodeB] 60 1 3 3 1 1 6 _ (by decide)

/-- Reading the key just written. -/
theorem dictGet_dictSet_self {β : Type} (k : String) (v : β) (l : List (String × β)) :
    dictGet k (dictSet k v l) = some v := by
  induction l with
  | nil => simp [dictGet, dictSet]
  | cons p rest ih =>
    by_cases hk : p.1 = k
    · simp [dictGet, dictSet, hk]
    · simp [dictGet, dictSet, hk, ih]

/-- Reading another key after a write. -/
theorem dictGet_dictSet_ne {β : Type} (k k2 : String) (v : β) (l : List (String × β))
    (hne : k2 ≠ k) : dictGet k2 (dictSet k v l) = dictGet k2 l := by
  have hne2 : ¬ k = k2 := fun h => hne h.symm
  induction l with
  | nil => simp [dictGet, dictSet, hne2]
  | cons p rest ih =>
    obtain ⟨k1, v1⟩ := p
    by_cases hk : k1 = k
    · subst hk
      simp [dictGet, dictSet, hne2]
    · by_cases hk2 : k1 = k2
      · subst hk2
        simp [dictGet, dictSet, hk]
      · simp [dictGet, dictSet, hk, hk2, ih]

/-- A fold preserves an invariant preserved by every step. -/
theorem foldl_preserve {σ α : Type} (f : σ → α → σ) (P : σ → Prop)
    (hstep : ∀ s b, P s → P (f s b)) :
    ∀ (l : List α) (s : σ), P s → P (List.foldl f s l) := by
  intro l
  induction l with
  | nil => intro s h; exact h
  | cons b rest ih => intro s h; exact ih (f s b) (hstep s b h)

/-- A fold establishes a property established by one of its elements and
preserved by every later step. -/
theorem foldl_establish {σ α : Type} (f : σ → α → σ) (P : σ → Prop) (l : List α) (a : α)
    (ha : a ∈ l) (hstep : ∀ s b, P s → P (f s b)) (hset : ∀ s, P (f s a)) :
    ∀ s, P (List.foldl f s l) := by
  induction l with
  | nil => cases ha
  | cons b rest ih =>
    intro s
    simp only [List.foldl_cons]
    rcases List.mem_cons.mp ha with rfl | hmem
    · exact foldl_preserve f P hstep rest (f s a) (hset s)
    · exact ih hmem (f s b)

/-- Edge membership survives any later `add_edge`. -/
theorem hasEdge_add_edge_mono (g : Graph) (a b u v : String) (w : ℚ) (dir : Bool)
    (h : g.hasEdge u v) : (g.add_edge a b w dir).hasEdge u v := by
  have keep : ∀ (adj : List (String × List (String × ℚ))) (x y : String) (wv : ℚ),
      (∃ w2, dictGet v ((dictGet u adj).getD []) = some w2) →
      ∃ w1, dictGet v ((dictGet u
        (dictSet x (dictSet y wv ((dictGet x adj).getD [])) adj)).getD []) = some w1 := by
    intro adj x y wv hget
    obtain ⟨w2, hw2⟩ := hget
    by_cases hux : u = x
    · subst hux
      rw [dictGet_dictSet_self]
      by_cases hvy : v = y
      · subst hvy
        exact ⟨wv, by simp [dictGet_dictSet_self]⟩
      · exact ⟨w2, by simp [dictGet_dictSet_ne y v wv _ hvy, hw2]⟩
    · rw [dictGet_dictSet_ne x u _ adj hux]
      exact ⟨w2, hw2⟩
  simp only [Graph.add_edge]
  split
  · exact keep g.adj a b w h
  · exact keep _ b a w (keep g.adj a b w h)

/-- The edge just added by a directed `add_edge` is present. -/
theorem hasEdge_add_edge_self (g : Graph) (a b : String) (w : ℚ) :
    (g.add_edge a b w true).hasEdge a b := by
  simp only [Graph.add_edge]
  exact ⟨w, by simp [Graph.nbrs, dictGet_dictSet_self]⟩

/-- C9 counterexample: adding control node C without a risk value makes the
whole search return the empty list, although the well-formed pair (A, B) still
admits its candidate — the per-pair failure is not skipped but aborts every
candidate (the KeyError is caught only by the outer handler). -/
theorem per_pair_failure_cex :
    generar_rutas_optimas havOne "T" [nodeA, nodeB, nodeCbad] 60 1 3 3 1 1 6 = [] ∧
    generarE havOne "T" [nodeA, nodeB, nodeCbad] 60 1 3 3 1 1 6 = .error .keyError ∧
    generar_rutas_optimas havOne "T" [nodeA, nodeB] 60 1 3 3 1 1 6 ≠ [] := by
  refine ⟨by decide, by decide, by decide⟩

/-- C9 as amended: a failure while computing one pair's edge during graph
construction (a node of the pair missing coordinates or name) skips only that
edge — every pair whose two nodes carry name, latitude and longitude still
gets its directed edge, whatever malformed nodes appear elsewhere in the list;
but a failure while building any single candidate (for example a control node
on a path missing its risk value) aborts the whole search, which returns the
empty list; in both cases the search returns normally instead of raising. -/
theorem per_pair_failure_spec (hav : ℚ → ℚ → ℚ → ℚ → ℚ) (now : String)
    (nodos : List NodeRec) (d v df ex al be tol : ℚ) :
    (∀ n1 n2 : NodeRec, (n1, n2) ∈ pairsAfter nodos →
      ∀ nm1 nm2 la1 lo1 la2 lo2,
        n1.name = some nm1 → n1.lat = some la1 → n1.lng = some lo1 →
        n2.name = some nm2 → n2.lat = some la2 → n2.lng = some lo2 →
        (buildGraph hav nodos).hasEdge nm1 nm2) ∧
    (∀ e, generarE hav now nodos d v df ex al be tol = .error e →
      generar_rutas_optimas hav now nodos d v df ex al be tol = []) := by
  constructor
  · intro n1 n2 hmem nm1 nm2 la1 lo1 la2 lo2 hn1 hla1 hlo1 hn2 hla2 hlo2
    unfold buildGraph
    refine foldl_establish (edgeStep hav) (fun g => g.hasEdge nm1 nm2) (pairsAfter nodos)
      (n1, n2) hmem ?_ ?_ _
    · intro s b hs
      unfold edgeStep
      split
      · exact hasEdge_add_edge_mono _ _ _ _ _ _ _ hs
      · exact hs
    · intro s
      show (edgeStep hav s (n1, n2)).hasEdge nm1 nm2
      unfold edgeStep
      simp only [hn1, hla1, hlo1, hn2, hla2, hlo2]
      exact hasEdge_add_edge_self s nm1 nm2 _
  · intro e hE
    simp [generar_rutas_optimas, hE]

/-- C9 witness: the edge (A, B) is created even when a malformed node with no
latitude sits in front of the pair, and the aborting run returns the empty
list. -/
theorem per_pair_failure_spec_witness :
    (buildGraph havOne [⟨some "D", none, some 7, some "interest", none⟩, nodeA, nodeB]).hasEdge
      "A" "B" ∧
    generar_rutas_optimas havOne "T" [nodeA, nodeB, nodeCbad] 60 1 3 3 1 1 6 = [] :=
  ⟨(per_pair_failure_spec havOne "T"
      [⟨some "D", none, some 7, some "interest", none⟩, nodeA, nodeB] 60 1 3 3 1 1 6).1
      nodeA nodeB (by decide) "A" "B" 0 0 1 0 (by decide) (by decide) (by decide)
      (by decide) (by decide) (by decide),
    (per_pair_failure_spec havOne "T" [nodeA, nodeB, nodeCbad] 60 1 3 3 1 1 6).2
      .keyError (by decide)⟩

/-- A successful dict read returns a pair of the list. -/
theorem dictGet_some_mem {β : Type} (k : String) (v : β) :
    ∀ l : List (String × β), dictGet k l = some v → (k, v) ∈ l := by
  intro l
  induction l with
  | nil => intro h; cases h
  | cons p rest ih =>
    intro h
    simp only [dictGet] at h
    split at h
    · injection h with h2
      subst h2
      rename_i hcond
      obtain ⟨p1, p2⟩ := p
      simp only at hcond
      subst hcond
      exact List.mem_cons_self _ _
    · exact List.mem_cons_of_mem p (ih h)

/-- A key present in the list reads as some value. -/
theorem mem_dictGet_isSome {β : Type} (k : String) (v : β) :
    ∀ l : List (String × β), (k, v) ∈ l → ∃ v2, dictGet k l = some v2 := by
  intro l
  induction l with
  | nil => intro h; cases h
  | cons p rest ih =>
    intro h
    simp only [dictGet]
    by_cases hk : p.1 = k
    · exact ⟨p.2, by simp [hk]⟩
    · rcases List.mem_cons.mp h with rfl | hmem
      · simp at hk
      · simpa [hk] using ih hmem

/-- With distinct keys, a present pair is exactly what the read returns. -/
theorem dictGet_of_mem_nodup {β : Type} (k : String) (v : β) :
    ∀ l : List (String × β), (k, v) ∈ l → (l.map Prod.fst).Nodup → dictGet k l = some v := by
  intro l
  induction l with
  | nil => intro h; cases h
  | cons p rest ih =>
    intro h hnodup
    rcases List.mem_cons.mp h with rfl | hmem
    · simp [dictGet]
    · simp only [List.map_cons, List.nodup_cons] at hnodup
      have hk : p.1 ≠ k := by
        intro hk
        exact hnodup.1 (hk ▸ List.mem_map.mpr ⟨(k, v), hmem, rfl⟩)
      simp [dictGet, hk, ih hmem hnodup.2]

/-- A read of an absent key is `none`. -/
theorem dictGet_eq_none_iff {β : Type} (k : String) :
    ∀ l : List (String × β), dictGet k l = none ↔ k ∉ l.map Prod.fst := by
  intro l
  induction l with
  | nil => simp [dictGet]
  | cons p rest ih =>
    by_cases hk : p.1 = k
    · simp [dictGet, hk]
    · have hk2 : k ≠ p.1 := fun h => hk h.symm
      simp [dictGet, hk, ih, hk2]

/-- Writing an existing key keeps the key list. -/
theorem dictSet_keys_of_mem {β : Type} (k : String) (v : β) :
    ∀ l : List (String × β), k ∈ l.map Prod.fst →
      (dictSet k v l).map Prod.fst = l.map Prod.fst := by
  intro l
  induction l with
  | nil => intro h; cases h
  | cons p rest ih =>
    intro h
    by_cases hk : p.1 = k
    · simp [dictSet, hk]
    · have hmem : k ∈ rest.map Prod.fst := by
        rcases List.mem_cons.mp h with h1 | h1
        · exact absurd h1.symm hk
        · exact h1
      simp [dictSet, hk, ih hmem]

/-- Writing a new key appends it to the key list. -/
theorem dictSet_keys_of_not_mem {β : Type} (k : String) (v : β) :
    ∀ l : List (String × β), k ∉ l.map Prod.fst →
      (dictSet k v l).map Prod.fst = l.map Prod.fst ++ [k] := by
  intro l
  induction l with
  | nil => intro h; simp [dictSet]
  | cons p rest ih =>
    intro h
    simp only [List.map_cons, List.mem_cons] at h
    push_neg at h
    have h1 : p.1 ≠ k := fun hh => h.1 hh.symm
    simp [dictSet, h1, ih h.2]

/-- A fold preserves an invariant preserved by every step over a list element. -/
theorem foldl_preserve_mem {σ α : Type} (f : σ → α → σ) (P : σ → Prop) :
    ∀ (l : List α), (∀ s b, b ∈ l → P s → P (f s b)) → ∀ s, P s → P (List.foldl f s l) := by
  intro l
  induction l with
  | nil => intro _ s h; exact h
  | cons b rest ih =>
    intro hstep s h
    exact ih (fun s2 b2 hb2 => hstep s2 b2 (List.mem_cons_of_mem b hb2)) (f s b)
      (hstep s b (List.mem_cons_self b rest) h)

/-- Every index pair of the nested loops appears in the pair list. -/
theorem pairsAfter_mem_of_lt {α : Type} :
    ∀ (l : List α) (i j : Nat) (hi : i < l.length) (hj : j < l.length), i < j →
      (l.get ⟨i, hi⟩, l.get ⟨j, hj⟩) ∈ pairsAfter l := by
  intro l
  induction l with
  | nil => intro i j hi; simp at hi
  | cons x rest ih =>
    intro i j hi hj hij
    cases j with
    | zero => omega
    | succ jn =>
      cases i with
      | zero =>
        apply List.mem_append.mpr
        left
        apply List.mem_map.mpr
        exact ⟨rest.get ⟨jn, by simpa using hj⟩, List.get_mem _ _ _, rfl⟩
      | succ in2 =>
        apply List.mem_append.mpr
        right
        exact ih in2 jn (by simpa using hi) (by simpa using hj) (by omega)

/-- Every listed pair comes from an index pair of the nested loops. -/
theorem mem_pairsAfter {α : Type} :
    ∀ (l : List α) (a b : α), (a, b) ∈ pairsAfter l →
      ∃ (i j : Nat) (hi : i < l.length) (hj : j < l.length),
        i < j ∧ l.get ⟨i, hi⟩ = a ∧ l.get ⟨j, hj⟩ = b := by
  intro l
  induction l with
  | nil => intro a b h; cases h
  | cons x rest ih =>
    intro a b h
    rcases List.mem_append.mp h with h1 | h1
    · obtain ⟨y, hy, hxy⟩ := List.mem_map.mp h1
      obtain ⟨⟨j0, hj0⟩, hj0y⟩ := List.mem_iff_get.mp hy
      injection hxy with hx1 hx2
      refine ⟨0, j0 + 1, by simp, by simpa using hj0, by omega, hx1, ?_⟩
      simpa [List.get] using hj0y.trans hx2
    · obtain ⟨i, j, hi, hj, hij, ha, hb⟩ := ih a b h1
      exact ⟨i + 1, j + 1, by simpa using hi, by simpa using hj, by omega, ha, hb⟩

/-- The node-creation loop appends exactly the named nodes, in order, to any
graph that holds none of them yet. -/
theorem addNodesLoop_adj (nodos : List NodeRec) (names : List String)
    (hn : nodos.map NodeRec.name = names.map some) (hne : ∀ nm ∈ names, nm ≠ "")
    (hnodup : names.Nodup) :
    ∀ g : Graph, (∀ nm ∈ names, nm ∉ g.nodes) →
      (addNodesLoop nodos g).adj = g.adj ++ names.map (fun nm => (nm, [])) := by
  induction nodos generalizing names with
  | nil =>
    cases names with
    | nil => intro g _; simp [addNodesLoop]
    | cons nm rest => intro g _; cases hn
  | cons n nrest ih =>
    cases names with
    | nil => cases hn
    | cons nm rest =>
      intro g hnew
      simp only [List.map_cons, List.cons.injEq] at hn
      obtain ⟨hn1, hn2⟩ := hn
      obtain ⟨hnm_rest, hnodup_rest⟩ := List.nodup_cons.mp hnodup
      have hnmne : nm ≠ "" := hne nm (List.mem_cons_self nm rest)
      have hnotin : nm ∉ g.nodes := hnew nm (List.mem_cons_self nm rest)
      have hng : (dictGet nm g.adj) = none := by
        rw [dictGet_eq_none_iff]
        exact hnotin
      have hadd : (g.add_node nm).adj = g.adj ++ [(nm, [])] := by
        simp [Graph.add_node, hng]
      have hstep : (match n.name with
          | none => g
          | some nm2 => if nm2 = "" then g else g.add_node nm2) = g.add_node nm := by
        simp only [hn1]
        rw [if_neg hnmne]
      calc (addNodesLoop (n :: nrest) g).adj
      _ = (addNodesLoop nrest (g.add_node nm)).adj := by
        simp only [addNodesLoop, List.foldl_cons]
        rw [show (match n.name with
          | none => g
          | some nm2 => if nm2 = "" then g else g.add_node nm2) = g.add_node nm from hstep]
      _ = (g.add_node nm).adj ++ rest.map (fun nm2 => (nm2, [])) := by
        refine ih rest hn2 (fun nm2 h2 => hne nm2 (List.mem_cons_of_mem nm h2)) hnodup_rest _ ?_
        intro nm2 h2
        have hnin : nm2 ∉ g.nodes := hnew nm2 (List.mem_cons_of_mem nm h2)
        simp only [Graph.nodes, hadd, List.map_append]
        intro hmem
        rcases List.mem_append.mp hmem with h3 | h3
        · exact hnin h3
        · simp only [List.map_cons, List.map_nil, List.mem_singleton] at h3
          subst h3
          exact hnm_rest h2
      _ = g.adj ++ (nm, ([] : List (String × ℚ))) :: rest.map (fun nm2 => (nm2, [])) := by
        rw [hadd]
        simp

/-- Adjacency of a directed `add_edge`, unfolded. -/
theorem add_edge_true_adj (g : Graph) (a b : String) (w : ℚ) :
    (g.add_edge a b w true).adj = dictSet a (dictSet b w ((dictGet a g.adj).getD [])) g.adj :=
  rfl

/-- Pointwise reading of the name correspondence hypothesis. -/
theorem names_get (nodos : List NodeRec) (names : List String)
    (hn : nodos.map NodeRec.name = names.map some) :
    nodos.length = names.length ∧
    ∀ (i : Nat) (hi : i < nodos.length) (hi2 : i < names.length),
      (nodos.get ⟨i, hi⟩).name = some (names.get ⟨i, hi2⟩) := by
  have hlen : nodos.length = names.length := by
    have := congrArg List.length hn
    simpa using this
  refine ⟨hlen, ?_⟩
  intro i hi hi2
  have h0 : (nodos.map NodeRec.name)[i]? = (names.map some)[i]? := by rw [hn]
  rw [List.getElem?_map, List.getElem?_map] at h0
  rw [List.getElem?_eq_getElem hi, List.getElem?_eq_getElem hi2] at h0
  simp only [Option.map_some'] at h0
  injection h0 with h1

/-- The graph produced by the node loop has no edges. -/
theorem addNodesLoop_nbrs (nodos : List NodeRec) (names : List String)
    (hn : nodos.map NodeRec.name = names.map some) (hne : ∀ nm ∈ names, nm ≠ "")
    (hnodup : names.Nodup) (u : String) :
    (addNodesLoop nodos Graph.empty).nbrs u = [] := by
  have hadj := addNodesLoop_adj nodos names hn hne hnodup Graph.empty
    (by simp [Graph.nodes, Graph.empty])
  have hadj2 : (addNodesLoop nodos Graph.empty).adj = names.map (fun nm => (nm, [])) := by
    simpa [Graph.empty] using hadj
  have hcases : ∀ names2 : List String,
      dictGet u (names2.map (fun nm => (nm, ([] : List (String × ℚ))))) = none ∨
      dictGet u (names2.map (fun nm => (nm, ([] : List (String × ℚ))))) = some [] := by
    intro names2
    induction names2 with
    | nil => left; rfl
    | cons nm rest ih =>
      by_cases hnm : nm = u
      · right; simp [dictGet, hnm]
      · simpa [dictGet, hnm] using ih
  unfold Graph.nbrs
  rw [hadj2]
  rcases hcases names with h | h <;> simp [h]

/-- Keys of the built route graph are exactly the node names, in order. -/
theorem buildGraph_nodes (hav : ℚ → ℚ → ℚ → ℚ → ℚ) (nodos : List NodeRec)
    (names : List String)
    (hn : nodos.map NodeRec.name = names.map some) (hne : ∀ nm ∈ names, nm ≠ "")
    (hnodup : names.Nodup) :
    (buildGraph hav nodos).nodes = names := by
  obtain ⟨hlen, hget⟩ := names_get nodos names hn
  have hadj := addNodesLoop_adj nodos names hn hne hnodup Graph.empty
    (by simp [Graph.nodes, Graph.empty])
  have hadj2 : (addNodesLoop nodos Graph.empty).adj = names.map (fun nm => (nm, [])) := by
    simpa [Graph.empty] using hadj
  have hbase : (addNodesLoop nodos Graph.empty).nodes = names := by
    simp [Graph.nodes, hadj2, List.map_map, Function.comp_def]
  unfold buildGraph
  refine foldl_preserve_mem (edgeStep hav) (fun g => g.nodes = names) (pairsAfter nodos)
    ?_ _ hbase
  intro s b hb hs
  unfold edgeStep
  split
  · rename_i lng1 lat1 lng2 lat2 nm1 nm2 hlng1 hlat1 hlng2 hlat2 hnm1 hnm2
    obtain ⟨i, j, hi, hj, hij, hbi, hbj⟩ := mem_pairsAfter nodos b.1 b.2 (by
      obtain ⟨b1, b2⟩ := b
      exact hb)
    have hthis := hget i hi (by omega)
    rw [hbi, hnm1] at hthis
    injection hthis with h2
    have hnm1names : nm1 ∈ names := List.mem_iff_get.mpr ⟨⟨i, by omega⟩, h2.symm⟩
    simp only [Graph.nodes] at hs ⊢
    rw [add_edge_true_adj]
    rw [dictSet_keys_of_mem nm1 _ s.adj (by rw [hs]; exact hnm1names), hs]
  · exact hs

/-- Edges of a directed `add_edge` are the new pair or edges already present. -/
theorem hasEdge_add_edge_inv (g : Graph) (a b u v : String) (w : ℚ)
    (h : (g.add_edge a b w true).hasEdge u v) : (u = a ∧ v = b) ∨ g.hasEdge u v := by
  simp only [Graph.hasEdge, Graph.nbrs, add_edge_true_adj] at h ⊢
  by_cases hua : u = a
  · subst hua
    rw [dictGet_dictSet_self] at h
    simp only [Option.getD_some] at h
    by_cases hvb : v = b
    · exact Or.inl ⟨rfl, hvb⟩
    · obtain ⟨w1, hw1⟩ := h
      rw [dictGet_dictSet_ne b v w _ hvb] at hw1
      exact Or.inr ⟨w1, hw1⟩
  · rw [dictGet_dictSet_ne a u _ g.adj hua] at h
    exact Or.inr h

/-- The pair loop creates the directed edge of every pair whose two nodes
carry name and coordinates, whatever the other nodes look like. -/
theorem buildGraph_hasEdge (hav : ℚ → ℚ → ℚ → ℚ → ℚ) (nodos : List NodeRec)
    (n1 n2 : NodeRec) (hmem : (n1, n2) ∈ pairsAfter nodos)
    (nm1 nm2 : String) (la1 lo1 la2 lo2 : ℚ)
    (hn1 : n1.name = some nm1) (hla1 : n1.lat = some la1) (hlo1 : n1.lng = some lo1)
    (hn2 : n2.name = some nm2) (hla2 : n2.lat = some la2) (hlo2 : n2.lng = some lo2) :
    (buildGraph hav nodos).hasEdge nm1 nm2 := by
  unfold buildGraph
  refine foldl_establish (edgeStep hav) (fun g => g.hasEdge nm1 nm2) (pairsAfter nodos)
    (n1, n2) hmem ?_ ?_ _
  · intro s b hs
    unfold edgeStep
    split
    · exact hasEdge_add_edge_mono _ _ _ _ _ _ _ hs
    · exact hs
  · intro s
    show (edgeStep hav s (n1, n2)).hasEdge nm1 nm2
    unfold edgeStep
    simp only [hn1, hla1, hlo1, hn2, hla2, hlo2]
    exact hasEdge_add_edge_self s nm1 nm2 _

/-- Every edge of the built route graph goes from an earlier-listed node name
to a later-listed one. -/
theorem buildGraph_edge_forward (hav : ℚ → ℚ → ℚ → ℚ → ℚ) (nodos : List NodeRec)
    (names : List String)
    (hn : nodos.map NodeRec.name = names.map some) (hne : ∀ nm ∈ names, nm ≠ "")
    (hnodup : names.Nodup) (u v : String)
    (h : (buildGraph hav nodos).hasEdge u v) :
    ∃ (i j : Nat) (hi : i < names.length) (hj : j < names.length),
      i < j ∧ names.get ⟨i, hi⟩ = u ∧ names.get ⟨j, hj⟩ = v := by
  obtain ⟨hlen, hget⟩ := names_get nodos names hn
  have main := foldl_preserve_mem (edgeStep hav)
    (fun g2 => ∀ u2 v2, g2.hasEdge u2 v2 →
      ∃ (i j : Nat) (hi : i < names.length) (hj : j < names.length),
        i < j ∧ names.get ⟨i, hi⟩ = u2 ∧ names.get ⟨j, hj⟩ = v2)
    (pairsAfter nodos) ?step (addNodesLoop nodos Graph.empty) ?base
  · exact main u v h
  case base =>
    intro u2 v2 h2
    obtain ⟨w2, hw2⟩ := h2
    rw [addNodesLoop_nbrs nodos names hn hne hnodup u2] at hw2
    cases hw2
  case step =>
    intro s b hb hs
    unfold edgeStep
    split
    · rename_i lng1 lat1 lng2 lat2 nm1 nm2 hlng1 hlat1 hlng2 hlat2 hnm1 hnm2
      intro u2 v2 h2
      rcases hasEdge_add_edge_inv s nm1 nm2 u2 v2 _ h2 with ⟨rfl, rfl⟩ | h3
      · obtain ⟨i, j, hi, hj, hij, hbi, hbj⟩ := mem_pairsAfter nodos b.1 b.2 (by
          obtain ⟨b1, b2⟩ := b
          exact hb)
        have hthis1 := hget i hi (by omega)
        rw [hbi, hnm1] at hthis1
        injection hthis1 with hna
        have hthis2 := hget j hj (by omega)
        rw [hbj, hnm2] at hthis2
        injection hthis2 with hnb
        exact ⟨i, j, by omega, by omega, hij, hna.symm, hnb.symm⟩
      · exact hs u2 v2 h3
    · exact hs

/-- A successful strict comparison forces a finite left distance. -/
theorem wltW_some_left (a b : Option ℚ) (h : wltW a b = true) : ∃ x, a = some x := by
  cases a with
  | none => simp [wltW] at h
  | some x => exact ⟨x, rfl⟩

/-- A finite sum of distances forces both summands finite. -/
theorem wadd_some (a b : Option ℚ) (x : ℚ) (h : wadd a b = some x) :
    (∃ y, a = some y) ∧ ∃ z, b = some z := by
  cases a with
  | none => simp [wadd] at h
  | some y =>
    cases b with
    | none => simp [wadd] at h
    | some z => exact ⟨⟨y, rfl⟩, ⟨z, rfl⟩⟩

/-- Matrix update evaluation. -/
theorem mupd_eval {α : Type} (m : String → String → α) (i j : String) (v : α) (a b : String) :
    mupd m i j v a b = if a = i ∧ b = j then v else m a b := rfl

/-- First projection of a matrix pair. -/
theorem fwm_fst (a : String → String → Option ℚ) (b : String → String → Option String) :
    (Prod.mk a b : FWMat).1 = a := rfl

/-- Second projection of a matrix pair. -/
theorem fwm_snd (a : String → String → Option ℚ) (b : String → String → Option String) :
    (Prod.mk a b : FWMat).2 = b := rfl

/-- One all-pairs relaxation keeps a finite entry finite. -/
theorem fwRelax_preserve_some (k i j u v : String) (m : FWMat)
    (h : (fwRelax k i j m).1 u v = none) : m.1 u v = none := by
  unfold fwRelax at h
  split at h
  · rename_i hlt
    rw [fwm_fst, mupd_eval] at h
    split at h
    · rename_i huv
      obtain ⟨x, hx⟩ := wltW_some_left _ _ hlt
      rw [hx] at h
      cases h
    · exact h
  · exact h

/-- One all-pairs relaxation writes only entries between names whose indices
ascend, provided every finite entry already does and the hop is a name. -/
theorem fwRelax_preserve_asc (names : List String) (k i j : String) (hk : k ∈ names)
    (m : FWMat)
    (hQ : ∀ (ia ib : Fin names.length),
      m.1 (names.get ia) (names.get ib) ≠ none → (ia : Nat) ≤ (ib : Nat)) :
    ∀ (ia ib : Fin names.length),
      (fwRelax k i j m).1 (names.get ia) (names.get ib) ≠ none → (ia : Nat) ≤ (ib : Nat) := by
  intro ia ib h
  unfold fwRelax at h
  split at h
  · rename_i hlt
    rw [fwm_fst, mupd_eval] at h
    split at h
    · rename_i hij
      obtain ⟨x, hx⟩ := wltW_some_left _ _ hlt
      obtain ⟨⟨y, hy⟩, ⟨z, hz⟩⟩ := wadd_some _ _ x hx
      obtain ⟨ikf, hikf⟩ := List.mem_iff_get.mp hk
      have h1 : m.1 (names.get ia) (names.get ikf) ≠ none := by
        rw [hikf, hij.1, hy]
        simp
      have h2 : m.1 (names.get ikf) (names.get ib) ≠ none := by
        rw [hikf, hij.2, hz]
        simp
      exact le_trans (hQ ia ikf h1) (hQ ikf ib h2)
    · exact hQ ia ib h
  · exact hQ ia ib h

/-- One initialization row keeps a finite entry finite. -/
theorem fwInitRow_preserve_some (u0 : String) (row : List (String × ℚ)) (m : FWMat)
    (u v : String) (hm : m.1 u v ≠ none) : (fwInitRow u0 row m).1 u v ≠ none := by
  unfold fwInitRow
  refine foldl_preserve _ (fun m2 : FWMat => m2.1 u v ≠ none) ?_ row _ ?_
  · intro m2 vw hm2
    simp only [fwm_fst, mupd_eval]
    split
    · simp
    · exact hm2
  · simp only [fwm_fst, mupd_eval]
    split
    · simp
    · exact hm

/-- The initial matrices have finite entries only on the diagonal and on
direct edges. -/
theorem fwInit_some_cases (g : Graph) (hnodup : (g.adj.map Prod.fst).Nodup) :
    ∀ u v, (fwInit g).1 u v ≠ none → u = v ∨ g.hasEdge u v := by
  unfold fwInit
  refine foldl_preserve_mem _
    (fun m : FWMat => ∀ u v, m.1 u v ≠ none → u = v ∨ g.hasEdge u v) g.adj ?_ _ ?_
  · intro m p hp hI
    unfold fwInitRow
    refine foldl_preserve_mem _
      (fun m2 : FWMat => ∀ u v, m2.1 u v ≠ none → u = v ∨ g.hasEdge u v) p.2 ?_ _ ?_
    · intro m2 vw hvw hI2 u v h
      simp only [fwm_fst, mupd_eval] at h
      split at h
      · rename_i huv
        right
        rw [huv.1, huv.2]
        have hrow : dictGet p.1 g.adj = some p.2 := by
          apply dictGet_of_mem_nodup
          · obtain ⟨p1, p2⟩ := p
            exact hp
          · exact hnodup
        obtain ⟨v2, hv2⟩ := mem_dictGet_isSome vw.1 vw.2 p.2 (by
          obtain ⟨a, b⟩ := vw
          exact hvw)
        exact ⟨v2, by simp [Graph.nbrs, hrow, hv2]⟩
      · exact hI2 u v h
    · intro u v h
      simp only [fwm_fst, mupd_eval] at h
      split at h
      · rename_i huv
        left
        rw [huv.1, huv.2]
      · exact hI u v h
  · intro u v h
    simp at h

/-- The initial distance matrix is finite on every direct edge. -/
theorem fwInit_some_of_edge (g : Graph) (u v : String) (hedge : g.hasEdge u v) :
    (fwInit g).1 u v ≠ none := by
  obtain ⟨w, hw⟩ := hedge
  have hrow : ∃ row, dictGet u g.adj = some row ∧ dictGet v row = some w := by
    simp only [Graph.nbrs] at hw
    cases hu : dictGet u g.adj with
    | none => rw [hu] at hw; cases hw
    | some row => exact ⟨row, rfl, by rw [hu] at hw; simpa using hw⟩
  obtain ⟨row, hrow1, hrow2⟩ := hrow
  unfold fwInit
  refine foldl_establish _ (fun m2 : FWMat => m2.1 u v ≠ none) g.adj (u, row)
    (dictGet_some_mem u row g.adj hrow1) ?_ ?_ _
  · intro m p hm
    exact fwInitRow_preserve_some p.1 p.2 m u v hm
  · intro m
    show (fwInitRow u row m).1 u v ≠ none
    unfold fwInitRow
    refine foldl_establish _ (fun m2 : FWMat => m2.1 u v ≠ none) row (v, w)
      (dictGet_some_mem v w row hrow2) ?_ ?_ _
    · intro m2 vw hm2
      simp only [fwm_fst, mupd_eval]
      split
      · simp
      · exact hm2
    · intro m2
      simp only [fwm_fst, mupd_eval]
      simp

/-- Every recorded next hop of the all-pairs solver is a direct edge of the
graph out of the row node. -/
theorem fw_next_adjacent (g : Graph) (hnodup : (g.adj.map Prod.fst).Nodup) :
    ∀ i j v, (g.floyd_warshall_with_paths).2 i j = some v → g.hasEdge i v := by
  have hinit : ∀ i j v, (fwInit g).2 i j = some v → g.hasEdge i v := by
    unfold fwInit
    refine foldl_preserve_mem _
      (fun m : FWMat => ∀ i j v, m.2 i j = some v → g.hasEdge i v) g.adj ?_ _ ?_
    · intro m p hp hI
      unfold fwInitRow
      refine foldl_preserve_mem _
        (fun m2 : FWMat => ∀ i j v, m2.2 i j = some v → g.hasEdge i v) p.2 ?_ _ ?_
      · intro m2 vw hvw hI2 i j v h
        simp only [fwm_snd, mupd_eval] at h
        split at h
        · rename_i hij
          injection h with h2
          have hrow : dictGet p.1 g.adj = some p.2 := by
            apply dictGet_of_mem_nodup
            · obtain ⟨p1, p2⟩ := p
              exact hp
            · exact hnodup
          obtain ⟨v2, hv2⟩ := mem_dictGet_isSome vw.1 vw.2 p.2 (by
            obtain ⟨a, b⟩ := vw
            exact hvw)
          rw [hij.1, ← h2]
          exact ⟨v2, by simp [Graph.nbrs, hrow, hv2]⟩
        · exact hI2 i j v h
      · intro i j v h
        simp only [fwm_snd] at h
        exact hI i j v h
    · intro i j v h
      simp at h
  have hstep : ∀ (k i j : String) (m : FWMat),
      (∀ a b v, m.2 a b = some v → g.hasEdge a v) →
      ∀ a b v, (fwRelax k i j m).2 a b = some v → g.hasEdge a v := by
    intro k i j m hN a b v h
    unfold fwRelax at h
    split at h
    · simp only [fwm_snd, mupd_eval] at h
      split at h
      · rename_i hab
        rw [hab.1]
        exact hN i k v h
      · exact hN a b v h
    · exact hN a b v h
  unfold Graph.floyd_warshall_with_paths fwLoop
  refine foldl_preserve _
    (fun m : FWMat => ∀ a b v, m.2 a b = some v → g.hasEdge a v) ?_ _ _ hinit
  intro m k hm
  refine foldl_preserve _
    (fun m2 : FWMat => ∀ a b v, m2.2 a b = some v → g.hasEdge a v) ?_ _ _ hm
  intro m2 i hm2
  refine foldl_preserve _
    (fun m3 : FWMat => ∀ a b v, m3.2 a b = some v → g.hasEdge a v) ?_ _ _ hm2
  intro m3 j hm3
  exact hstep k i j m3 hm3

/-- A successful walk of a next-hop matrix whose hops are graph edges starts
at the origin, ends at the destination, and steps only along edges. -/
theorem walkNext_spec (g : Graph) (nxt : String → String → Option String)
    (hnxt : ∀ i j v, nxt i j = some v → g.hasEdge i v) (dest : String) :
    ∀ (fuel : Nat) (cur : String) (p : List String),
      walkNext nxt dest fuel cur = some p →
      p.head? = some cur ∧ p.getLast? = some dest ∧ List.Chain' g.hasEdge p := by
  intro fuel
  induction fuel with
  | zero => intro cur p h; cases h
  | succ f ih =>
    intro cur p h
    simp only [walkNext] at h
    by_cases hcd : cur = dest
    · rw [if_pos hcd] at h
      injection h with h2
      subst h2
      subst hcd
      exact ⟨rfl, rfl, List.chain'_singleton cur⟩
    · rw [if_neg hcd] at h
      cases hv : nxt cur dest with
      | none =>
        simp only [hv] at h
        cases h
      | some v =>
        simp only [hv] at h
        cases hq : walkNext nxt dest f v with
        | none =>
          simp only [hq] at h
          cases h
        | some q =>
          simp only [hq] at h
          injection h with h2
          subst h2
          obtain ⟨ih1, ih2, ih3⟩ := ih v q hq
          refine ⟨rfl, ?_, ?_⟩
          · cases q with
            | nil => cases ih1
            | cons q0 qrest => simpa using ih2
          · refine List.chain'_cons'.mpr ⟨?_, ih3⟩
            intro y hy
            have hyv : v = y := by
              rw [ih1] at hy
              simpa using hy
            subst hyv
            exact hnxt cur dest v hv

/-- C1 (modelled from the spec, the all-pairs-with-paths solver and the path
reconstruction being absent from the sources): the solver returns a distance
matrix together with a next-hop matrix; whenever the walk of the next-hop
matrix from an origin reaches the destination, the emitted name sequence
starts at the origin, ends at the destination, and every consecutive pair is
a directed edge of the graph; and when no next-hop is recorded for a pair of
distinct nodes, reconstruction returns the empty path. -/
theorem reconstruct_path_chain_spec (g : Graph) (hnodup : (g.adj.map Prod.fst).Nodup) :
    (∀ (origin dest : String) (fuel : Nat) (p : List String),
      walkNext (g.floyd_warshall_with_paths).2 dest fuel origin = some p →
      p.head? = some origin ∧ p.getLast? = some dest ∧ List.Chain' g.hasEdge p) ∧
    (∀ (origin dest : String) (fuel : Nat), origin ≠ dest →
      (g.floyd_warshall_with_paths).2 origin dest = none →
      reconstruct_path origin dest (g.floyd_warshall_with_paths).2 fuel = []) := by
  constructor
  · intro origin dest fuel p h
    exact walkNext_spec g (g.floyd_warshall_with_paths).2 (fw_next_adjacent g hnodup)
      dest fuel origin p h
  · intro origin dest fuel hne hnone
    unfold reconstruct_path
    cases fuel with
    | zero => rfl
    | succ f =>
      simp only [walkNext, if_neg hne, hnone]
      rfl

/-- C1 witness: on the concrete two-node route graph the walk from A to B
succeeds with path [A, B], and no next hop is recorded from B back to A, so
reconstruction of that direction is empty. -/
theorem reconstruct_path_chain_spec_witness :
    (((buildGraph havOne [nodeA, nodeB]).adj.map Prod.fst).Nodup ∧
      walkNext ((buildGraph havOne [nodeA, nodeB]).floyd_warshall_with_paths).2 "B" 3 "A" =
        some ["A", "B"]) ∧
    (["A", "B"].head? = some "A" ∧ ["A", "B"].getLast? = some "B" ∧
      List.Chain' (buildGraph havOne [nodeA, nodeB]).hasEdge ["A", "B"]) ∧
    reconstruct_path "B" "A" ((buildGraph havOne [nodeA, nodeB]).floyd_warshall_with_paths).2
      5 = [] := by
  refine ⟨⟨by decide, by decide⟩, ?_, ?_⟩
  · exact (reconstruct_path_chain_spec (buildGraph havOne [nodeA, nodeB]) (by decide)).1
      "A" "B" 3 ["A", "B"] (by decide)
  · exact (reconstruct_path_chain_spec (buildGraph havOne [nodeA, nodeB]) (by decide)).2
      "B" "A" 5 (by decide) (by decide)

/-- A finite all-pairs entry stays finite through the triple relaxation loop. -/
theorem fwLoop_preserve_some (ns : List String) (u v : String) (m : FWMat)
    (hm : m.1 u v ≠ none) : (fwLoop ns m).1 u v ≠ none := by
  unfold fwLoop
  refine foldl_preserve _ (fun m2 : FWMat => m2.1 u v ≠ none) ?_ _ _ hm
  intro m2 k hm2
  refine foldl_preserve _ (fun m3 : FWMat => m3.1 u v ≠ none) ?_ _ _ hm2
  intro m3 i hm3
  refine foldl_preserve _ (fun m4 : FWMat => m4.1 u v ≠ none) ?_ _ _ hm3
  intro m4 j hm4 hnone
  exact hm4 (fwRelax_preserve_some k i j u v m4 hnone)

/-- The ascending-index invariant on finite entries is preserved by the
relaxation loop run over the (duplicate-free) name list. -/
theorem fwLoop_preserve_asc (names : List String) (m : FWMat)
    (hQ : ∀ (ia ib : Fin names.length),
      m.1 (names.get ia) (names.get ib) ≠ none → (ia : Nat) ≤ (ib : Nat)) :
    ∀ (ia ib : Fin names.length),
      (fwLoop names m).1 (names.get ia) (names.get ib) ≠ none → (ia : Nat) ≤ (ib : Nat) := by
  unfold fwLoop
  refine foldl_preserve_mem _ (fun m2 : FWMat => ∀ (ia ib : Fin names.length),
    m2.1 (names.get ia) (names.get ib) ≠ none → (ia : Nat) ≤ (ib : Nat)) names ?_ _ hQ
  intro m2 k hk hm2
  refine foldl_preserve _ (fun m3 : FWMat => ∀ (ia ib : Fin names.length),
    m3.1 (names.get ia) (names.get ib) ≠ none → (ia : Nat) ≤ (ib : Nat)) ?_ _ _ hm2
  intro m3 i hm3
  refine foldl_preserve _ (fun m4 : FWMat => ∀ (ia ib : Fin names.length),
    m4.1 (names.get ia) (names.get ib) ≠ none → (ia : Nat) ≤ (ib : Nat)) ?_ _ _ hm3
  intro m4 j hm4
  exact fwRelax_preserve_asc names k i j hk m4 hm4

/-- C2 counterexample: on two well-formed named nodes the edge loop calls
`add_edge` with `directed=True`, so the all-pairs distance matrix of the route
graph is not symmetric: A to B is finite (1 km under the unit haversine stub)
while B to A is infinite. -/
theorem route_graph_symmetry_cex :
    ((buildGraph havOne [nodeA, nodeB]).floyd_warshall_with_paths).1 "A" "B" = some 1000 ∧
    ((buildGraph havOne [nodeA, nodeB]).floyd_warshall_with_paths).1 "B" "A" = none := by
  constructor <;> decide

/-- C2 amended: the graph built in step 1 is directed, not undirected. For
every list of nodes with distinct non-empty names and coordinates, and every
index pair i < j, the all-pairs distance from the i-th name to the j-th is
finite but the distance from the j-th back to the i-th is infinite: the matrix
is finite only above the diagonal and never symmetric on a connected pair. -/
theorem route_graph_directed_spec (hav : ℚ → ℚ → ℚ → ℚ → ℚ) (nodos : List NodeRec)
    (names : List String)
    (hn : nodos.map NodeRec.name = names.map some)
    (hne : ∀ nm ∈ names, nm ≠ "") (hnodup : names.Nodup)
    (hcoord : ∀ n ∈ nodos, n.lat.isSome ∧ n.lng.isSome) :
    ∀ (i j : Nat) (hi : i < names.length) (hj : j < names.length), i < j →
      ((buildGraph hav nodos).floyd_warshall_with_paths).1
          (names.get ⟨i, hi⟩) (names.get ⟨j, hj⟩) ≠ none ∧
      ((buildGraph hav nodos).floyd_warshall_with_paths).1
          (names.get ⟨j, hj⟩) (names.get ⟨i, hi⟩) = none := by
  obtain ⟨hlen, hget⟩ := names_get nodos names hn
  intro i j hi hj hij
  have hi2 : i < nodos.length := by omega
  have hj2 : j < nodos.length := by omega
  have hgnodes : (buildGraph hav nodos).nodes = names :=
    buildGraph_nodes hav nodos names hn hne hnodup
  have hadjnodup : ((buildGraph hav nodos).adj.map Prod.fst).Nodup := by
    have h0 : (buildGraph hav nodos).nodes = (buildGraph hav nodos).adj.map Prod.fst := rfl
    rw [← h0, hgnodes]
    exact hnodup
  constructor
  · obtain ⟨la1, hla1⟩ := Option.isSome_iff_exists.mp
      (hcoord (nodos.get ⟨i, hi2⟩) (List.get_mem _ _ _)).1
    obtain ⟨lo1, hlo1⟩ := Option.isSome_iff_exists.mp
      (hcoord (nodos.get ⟨i, hi2⟩) (List.get_mem _ _ _)).2
    obtain ⟨la2, hla2⟩ := Option.isSome_iff_exists.mp
      (hcoord (nodos.get ⟨j, hj2⟩) (List.get_mem _ _ _)).1
    obtain ⟨lo2, hlo2⟩ := Option.isSome_iff_exists.mp
      (hcoord (nodos.get ⟨j, hj2⟩) (List.get_mem _ _ _)).2
    have hedge : (buildGraph hav nodos).hasEdge (names.get ⟨i, hi⟩) (names.get ⟨j, hj⟩) :=
      buildGraph_hasEdge hav nodos _ _ (pairsAfter_mem_of_lt nodos i j hi2 hj2 hij)
        (names.get ⟨i, hi⟩) (names.get ⟨j, hj⟩) la1 lo1 la2 lo2
        (hget i hi2 hi) hla1 hlo1 (hget j hj2 hj) hla2 hlo2
    have hfwd : (fwInit (buildGraph hav nodos)).1
        (names.get ⟨i, hi⟩) (names.get ⟨j, hj⟩) ≠ none :=
      fwInit_some_of_edge _ _ _ hedge
    show (fwLoop (buildGraph hav nodos).nodes (fwInit (buildGraph hav nodos))).1
        (names.get ⟨i, hi⟩) (names.get ⟨j, hj⟩) ≠ none
    exact fwLoop_preserve_some _ _ _ _ hfwd
  · have hQ0 : ∀ (ia ib : Fin names.length),
        (fwInit (buildGraph hav nodos)).1 (names.get ia) (names.get ib) ≠ none →
        (ia : Nat) ≤ (ib : Nat) := by
      intro ia ib h
      rcases fwInit_some_cases _ hadjnodup _ _ h with heq | hed
      · have hfin : ia = ib := (List.Nodup.get_inj_iff hnodup).mp heq
        exact le_of_eq (congrArg Fin.val hfin)
      · obtain ⟨i2, j2, hi2b, hj2b, hij2, hu, hv⟩ :=
          buildGraph_edge_forward hav nodos names hn hne hnodup _ _ hed
        have e1 : (⟨i2, hi2b⟩ : Fin names.length) = ia :=
          (List.Nodup.get_inj_iff hnodup).mp hu
        have e2 : (⟨j2, hj2b⟩ : Fin names.length) = ib :=
          (List.Nodup.get_inj_iff hnodup).mp hv
        cases e1
        cases e2
        exact le_of_lt hij2
    by_contra hcon
    have hfweq : (buildGraph hav nodos).floyd_warshall_with_paths =
        fwLoop names (fwInit (buildGraph hav nodos)) := by
      unfold Graph.floyd_warshall_with_paths
      rw [hgnodes]
    rw [hfweq] at hcon
    have hle := fwLoop_preserve_asc names (fwInit (buildGraph hav nodos)) hQ0
      ⟨j, hj⟩ ⟨i, hi⟩ hcon
    have hle2 : j ≤ i := hle
    omega

/-- C2 witness: the amended statement applied to the concrete two-node list,
with every hypothesis discharged by evaluation. -/
theorem route_graph_directed_spec_witness :
    (([nodeA, nodeB].map NodeRec.name = ["A", "B"].map some) ∧
      (∀ nm ∈ (["A", "B"] : List String), nm ≠ "") ∧
      (["A", "B"] : List String).Nodup ∧
      (∀ n ∈ [nodeA, nodeB], n.lat.isSome ∧ n.lng.isSome) ∧ (0 : Nat) < 1) ∧
    ((buildGraph havOne [nodeA, nodeB]).floyd_warshall_with_paths).1 "A" "B" ≠ none ∧
    ((buildGraph havOne [nodeA, nodeB]).floyd_warshall_with_paths).1 "B" "A" = none := by
  refine ⟨⟨by decide, by decide, by decide, by decide, by decide⟩, ?_⟩
  exact route_graph_directed_spec havOne [nodeA, nodeB] ["A", "B"] (by decide) (by decide)
    (by decide) (by decide) 0 1 (by decide) (by decide) (by decide)

/-- The dijkstra loop stops immediately on an empty heap, at any fuel. -/
theorem dloop_empty_pq (g : Graph) (fuel : Nat) (dist : List (String × Option ℚ)) :
    dloop g fuel ⟨dist, []⟩ = .ok dist := by
  cases fuel with
  | zero => rfl
  | succ f => rfl

/-- Popping a singleton heap yields its entry and the empty heap. -/
theorem popMinD_singleton (e : ℚ × String) : popMinD [e] = some (e, []) := by
  simp [popMinD, pqMin, removeFirst]

/-- A start node absent from the graph never errors: one loop iteration pops
it, finds no neighbor row, and every graph node stays at infinity. -/
theorem dijkstra_absent_start_ok (g : Graph) (start : String) (hstart : start ∉ g.nodes) :
    g.dijkstra start =
      .ok (dictSet start (some 0) (g.nodes.map (fun n => (n, (none : Option ℚ))))) := by
  have hnone : dictGet start g.adj = none := (dictGet_eq_none_iff start g.adj).mpr hstart
  have hnbrs : g.nbrs start = [] := by
    unfold Graph.nbrs
    rw [hnone]
    rfl
  have hfuel : 2 + g.nodes.length + g.totalEdges = (g.nodes.length + g.totalEdges) + 1 + 1 := by
    omega
  have hget : dictGet start
      (dictSet start (some (0 : ℚ)) (g.nodes.map (fun n => (n, (none : Option ℚ))))) =
      some (some 0) := dictGet_dictSet_self start _ _
  simp only [Graph.dijkstra]
  rw [hfuel]
  simp only [dloop, popMinD_singleton, hget]
  have hqgt : qgtOpt 0 (some 0) = false := by decide
  rw [hqgt]
  simp only [Bool.false_eq_true, if_false, hnbrs, relaxFold]
  rfl

/-- C8: the code diverges from the claimed failure semantics. An absent start
node is indeed handled without an error (every graph node maps to infinity,
the start to 0), but a node referenced only as the target of a directed edge
is never a key of the distances dict, so relaxing that edge raises a KeyError
that propagates out of dijkstra; and on a graph with zero nodes the result is
the singleton mapping start to 0, not an empty result. -/
theorem dijkstra_absent_node_bug (g : Graph) (start : String) (hstart : start ∉ g.nodes) :
    g.dijkstra start =
      .ok (dictSet start (some 0) (g.nodes.map (fun n => (n, (none : Option ℚ))))) ∧
    (Graph.empty.add_edge "A" "B" 1 true).dijkstra "A" = .error .keyError ∧
    Graph.empty.dijkstra "S" = .ok [("S", some 0)] := by
  refine ⟨dijkstra_absent_start_ok g start hstart, by decide, by decide⟩

/-- C8 witness: the general conjunct instantiated at the empty graph. -/
theorem dijkstra_absent_node_bug_witness :
    ("S" ∉ Graph.empty.nodes) ∧
    (Graph.empty.dijkstra "S" =
      .ok (dictSet "S" (some 0) (Graph.empty.nodes.map (fun n => (n, (none : Option ℚ)))))) ∧
    (Graph.empty.add_edge "A" "B" 1 true).dijkstra "A" = .error .keyError ∧
    Graph.empty.dijkstra "S" = .ok [("S", some 0)] := by
  exact ⟨by decide, dijkstra_absent_node_bug Graph.empty "S" (by decide)⟩

/-- The neighbor row of an absent key is empty. -/
theorem nbrs_eq_nil_of_not_mem (g : Graph) (u : String) (h : u ∉ g.nodes) :
    g.nbrs u = [] := by
  unfold Graph.nbrs
  rw [(dictGet_eq_none_iff u g.adj).mpr h]
  rfl

/-- A successful read means the key is present. -/
theorem mem_keys_of_dictGet_some {β : Type} (k : String) (v : β) (l : List (String × β))
    (h : dictGet k l = some v) : k ∈ l.map Prod.fst :=
  List.mem_map.mpr ⟨(k, v), dictGet_some_mem k v l h, rfl⟩

/-- A present key reads as some value. -/
theorem dictGet_isSome_of_mem_keys {β : Type} (k : String) (l : List (String × β))
    (h : k ∈ l.map Prod.fst) : ∃ v, dictGet k l = some v := by
  cases hv : dictGet k l with
  | none => exact absurd h ((dictGet_eq_none_iff k l).mp hv)
  | some v => exact ⟨v, rfl⟩

/-- Removal of one entry leaves a sublist. -/
theorem removeFirst_sublist (e : ℚ × String) :
    ∀ l : List (ℚ × String), (removeFirst e l).Sublist l := by
  intro l
  induction l with
  | nil => simp [removeFirst]
  | cons x rest ih =>
    unfold removeFirst
    by_cases hx : x = e
    · rw [if_pos hx]
      exact List.sublist_cons_self x rest
    · rw [if_neg hx]
      exact List.Sublist.cons₂ x ih

/-- Members of the removal came from the list. -/
theorem mem_of_mem_removeFirst (a e : ℚ × String) (l : List (ℚ × String))
    (h : a ∈ removeFirst e l) : a ∈ l :=
  (removeFirst_sublist e l).subset h

/-- Removal of one entry never raises a filter count. -/
theorem filter_removeFirst_le (e : ℚ × String) (p : ℚ × String → Bool)
    (l : List (ℚ × String)) :
    ((removeFirst e l).filter p).length ≤ (l.filter p).length :=
  ((removeFirst_sublist e l).filter p).length_le

/-- Removing a present entry shortens the list by one. -/
theorem removeFirst_length (e : ℚ × String) :
    ∀ l : List (ℚ × String), e ∈ l → (removeFirst e l).length + 1 = l.length := by
  intro l
  induction l with
  | nil => intro h; cases h
  | cons x rest ih =>
    intro h
    unfold removeFirst
    by_cases hx : x = e
    · rw [if_pos hx]
      rfl
    · rw [if_neg hx]
      have hmem : e ∈ rest := by
        rcases List.mem_cons.mp h with h1 | h1
        · exact absurd h1.symm hx
        · exact h1
      have h2 := ih hmem
      simp only [List.length_cons]
      omega

/-- Members survive removal of a different entry. -/
theorem mem_removeFirst_of_ne (a e : ℚ × String) (hne : a ≠ e) :
    ∀ l : List (ℚ × String), a ∈ removeFirst e l ↔ a ∈ l := by
  intro l
  induction l with
  | nil => simp [removeFirst]
  | cons x rest ih =>
    unfold removeFirst
    by_cases hx : x = e
    · rw [if_pos hx]
      subst hx
      simp only [List.mem_cons]
      constructor
      · exact fun h => Or.inr h
      · intro h
        rcases h with h | h
        · exact absurd h hne
        · exact h
    · rw [if_neg hx]
      simp [List.mem_cons, ih]

/-- Removing a present entry subtracts one from its own filter count. -/
theorem filter_removeFirst_self (e : ℚ × String) :
    ∀ l : List (ℚ × String), e ∈ l →
      ((removeFirst e l).filter (fun x => x = e)).length + 1 =
        (l.filter (fun x => x = e)).length := by
  intro l
  induction l with
  | nil => intro h; cases h
  | cons x rest ih =>
    intro h
    unfold removeFirst
    by_cases hx : x = e
    · rw [if_pos hx]
      subst hx
      simp [List.filter_cons]
    · rw [if_neg hx]
      have hmem : e ∈ rest := by
        rcases List.mem_cons.mp h with h1 | h1
        · exact absurd h1.symm hx
        · exact h1
      simpa [List.filter_cons, hx] using ih hmem

/-- The heap minimum of a nonempty heap exists: none means empty. -/
theorem pqMin_none : ∀ l : List (ℚ × String), pqMin l = none → l = [] := by
  intro l
  cases l with
  | nil => intro _; rfl
  | cons e rest =>
    intro h
    simp only [pqMin] at h
    cases hr : pqMin rest with
    | none =>
      simp only [hr] at h
      cases h
    | some m =>
      simp only [hr] at h
      cases h

/-- The heap minimum is an element of the heap. -/
theorem pqMin_mem : ∀ (l : List (ℚ × String)) (m : ℚ × String), pqMin l = some m → m ∈ l := by
  intro l
  induction l with
  | nil => intro m h; cases h
  | cons e rest ih =>
    intro m h
    simp only [pqMin] at h
    cases hr : pqMin rest with
    | none =>
      simp only [hr] at h
      injection h with h2
      rw [← h2]
      exact List.mem_cons_self e rest
    | some m2 =>
      simp only [hr] at h
      injection h with h2
      by_cases hle : entryLe e m2 = true
      · rw [if_pos hle] at h2
        rw [← h2]
        exact List.mem_cons_self e rest
      · rw [if_neg hle] at h2
        rw [← h2]
        exact List.mem_cons_of_mem e (ih m2 hr)

/-- Tuple order implies order of the distances. -/
theorem entryLe_fst_le (a b : ℚ × String) (h : entryLe a b = true) : a.1 ≤ b.1 := by
  unfold entryLe at h
  simp only [Bool.or_eq_true, Bool.and_eq_true, decide_eq_true_eq, beq_iff_eq] at h
  rcases h with h | ⟨h1, _⟩
  · exact le_of_lt h
  · exact le_of_eq h1

/-- Failed tuple order implies the reverse order of the distances. -/
theorem not_entryLe_fst_le (a b : ℚ × String) (h : entryLe a b = false) : b.1 ≤ a.1 := by
  unfold entryLe at h
  simp only [Bool.or_eq_false_iff, decide_eq_false_iff_not] at h
  exact le_of_not_lt h.1

/-- The heap minimum has the least distance component. -/
theorem pqMin_fst_le : ∀ (l : List (ℚ × String)) (m : ℚ × String), pqMin l = some m →
    ∀ x ∈ l, m.1 ≤ x.1 := by
  intro l
  induction l with
  | nil => intro m h; cases h
  | cons e rest ih =>
    intro m h x hx
    simp only [pqMin] at h
    cases hr : pqMin rest with
    | none =>
      have hrest : rest = [] := pqMin_none rest hr
      simp only [hr] at h
      injection h with h2
      subst hrest
      rcases List.mem_cons.mp hx with h3 | h3
      · rw [← h2, h3]
      · cases h3
    | some m2 =>
      simp only [hr] at h
      injection h with h2
      by_cases hle : entryLe e m2 = true
      · rw [if_pos hle] at h2
        subst h2
        rcases List.mem_cons.mp hx with h3 | h3
        · rw [h3]
        · exact le_trans (entryLe_fst_le e m2 hle) (ih m2 hr x h3)
      · rw [if_neg hle] at h2
        subst h2
        rcases List.mem_cons.mp hx with h3 | h3
        · rw [h3]
          exact not_entryLe_fst_le e m2 (Bool.eq_false_iff.mpr hle)
        · exact ih m2 hr x h3

/-- An empty pop means an empty heap. -/
theorem popMinD_none (l : List (ℚ × String)) (h : popMinD l = none) : l = [] := by
  unfold popMinD at h
  cases hm : pqMin l with
  | none => exact pqMin_none l hm
  | some m =>
    simp only [hm] at h
    cases h

/-- A successful pop yields a least member and removes one occurrence of it. -/
theorem popMinD_some_spec (l : List (ℚ × String)) (e : ℚ × String)
    (rest : List (ℚ × String)) (h : popMinD l = some (e, rest)) :
    e ∈ l ∧ rest = removeFirst e l ∧ ∀ x ∈ l, e.1 ≤ x.1 := by
  unfold popMinD at h
  cases hm : pqMin l with
  | none =>
    simp only [hm] at h
    cases h
  | some m =>
    simp only [hm] at h
    injection h with h2
    injection h2 with h3 h4
    subst h3
    subst h4
    exact ⟨pqMin_mem l _ hm, rfl, pqMin_fst_le l _ hm⟩

/-- Summing one plus a cost splits into length plus the costs. -/
theorem sum_map_one_add {α : Type} (h : α → Nat) : ∀ l : List α,
    (l.map (fun x => 1 + h x)).sum = l.length + (l.map h).sum := by
  intro l
  induction l with
  | nil => rfl
  | cons x rest ih =>
    simp only [List.map_cons, List.sum_cons, List.length_cons, ih]
    omega

/-- Pointwise bounded costs give bounded sums. -/
theorem sum_map_le_sum {α : Type} (f f2 : α → Nat) : ∀ l : List α,
    (∀ x ∈ l, f x ≤ f2 x) → (l.map f).sum ≤ (l.map f2).sum := by
  intro l
  induction l with
  | nil => intro _; exact le_refl 0
  | cons x rest ih =>
    intro hpt
    simp only [List.map_cons, List.sum_cons]
    have h1 := hpt x (List.mem_cons_self x rest)
    have h2 := ih (fun y hy => hpt y (List.mem_cons_of_mem x hy))
    omega

/-- Pointwise bounded costs with one slack position give the sum that slack. -/
theorem sum_map_add_le_of_strict {α : Type} (f f2 : α → Nat) (k : Nat) (a : α) :
    ∀ l : List α, a ∈ l → (∀ x ∈ l, f x ≤ f2 x) → f a + k ≤ f2 a →
      (l.map f).sum + k ≤ (l.map f2).sum := by
  intro l
  induction l with
  | nil => intro h; cases h
  | cons x rest ih =>
    intro ha hpt hstrict
    simp only [List.map_cons, List.sum_cons]
    rcases List.mem_cons.mp ha with rfl | hmem
    · have h2 := sum_map_le_sum f f2 rest (fun y hy => hpt y (List.mem_cons_of_mem _ hy))
      omega
    · have h1 := hpt x (List.mem_cons_self x rest)
      have h2 := ih hmem (fun y hy => hpt y (List.mem_cons_of_mem x hy)) hstrict
      omega

/-- Each node cost is at most one plus the node's out-degree. -/
theorem nodeCost_le (g : Graph) (dist : List (String × Option ℚ)) (pq : List (ℚ × String))
    (v : String) : nodeCost g dist pq v ≤ 1 + (g.nbrs v).length := by
  unfold nodeCost
  split
  · omega
  · omega
  · split
    · omega
    · omega

/-- Weights of walks are nonnegative when all edge weights are. -/
theorem chainWeight_nonneg (g : Graph)
    (hnn : ∀ u ∈ g.nodes, ∀ p ∈ g.nbrs u, (0 : ℚ) ≤ p.2) :
    ∀ (l : List String) (u : String) (c : ℚ), chainWeight g u l = some c → 0 ≤ c := by
  intro l
  induction l with
  | nil =>
    intro u c h
    simp only [chainWeight] at h
    injection h with h2
    rw [← h2]
  | cons y rest ih =>
    intro u c h
    simp only [chainWeight] at h
    cases hw : dictGet y (g.nbrs u) with
    | none =>
      simp only [hw] at h
      cases h
    | some w =>
      simp only [hw] at h
      cases hc : chainWeight g y rest with
      | none => simp only [hc] at h; cases h
      | some c1 =>
        simp only [hc, Option.map_some'] at h
        injection h with h2
        have hu : u ∈ g.nodes := by
          by_contra hu
          rw [nbrs_eq_nil_of_not_mem g u hu] at hw
          cases hw
        have hw0 : (0 : ℚ) ≤ w := hnn u hu (y, w) (dictGet_some_mem y w _ hw)
        have hc0 := ih y c1 hc
        rw [← h2]
        linarith

/-- The empty walk reaches the start at weight zero. -/
theorem reach_self (g : Graph) (S : String) : Reach g S S 0 :=
  ⟨[], rfl, rfl⟩

/-- A walk extends along one more edge, adding its weight. -/
theorem chainWeight_snoc (g : Graph) (u y : String) (w : ℚ)
    (hw : dictGet y (g.nbrs u) = some w) :
    ∀ (l : List String) (x : String) (c : ℚ),
      chainWeight g x l = some c → (x :: l).getLast? = some u →
      chainWeight g x (l ++ [y]) = some (c + w) := by
  intro l
  induction l with
  | nil =>
    intro x c hc hlast
    simp only [chainWeight] at hc
    injection hc with hc2
    have hx : x = u := by simpa using hlast
    subst hx
    simp only [List.nil_append, chainWeight, hw, Option.map_some']
    rw [← hc2]
    norm_num
  | cons z rest ih =>
    intro x c hc hlast
    simp only [chainWeight] at hc
    cases hw1 : dictGet z (g.nbrs x) with
    | none =>
      simp only [hw1] at hc
      cases hc
    | some w1 =>
      simp only [hw1] at hc
      cases hc1 : chainWeight g z rest with
      | none => simp only [hc1] at hc; cases hc
      | some c1 =>
        simp only [hc1, Option.map_some'] at hc
        injection hc with hc2
        have hlast2 : (z :: rest).getLast? = some u := by
          rw [← hlast]
          rfl
        have h3 := ih z c1 hc1 hlast2
        show chainWeight g x (z :: (rest ++ [y])) = some (c + w)
        simp only [chainWeight, hw1, h3, Option.map_some']
        rw [← hc2]
        congr 1
        ring

/-- Reachability extends along an edge. -/
theorem reach_step (g : Graph) (S u y : String) (w c : ℚ)
    (h : Reach g S u c) (hw : dictGet y (g.nbrs u) = some w) : Reach g S y (c + w) := by
  obtain ⟨rest, hc, hlast⟩ := h
  refine ⟨rest ++ [y], chainWeight_snoc g u y w hw rest S c hc hlast, ?_⟩
  show ((S :: rest) ++ [y]).getLast? = some y
  exact List.getLast?_concat _

/-- A failed strict improvement means the old distance was finite and no
larger than the candidate. -/
theorem qltOpt_false (q : ℚ) (dv0 : Option ℚ) (h : qltOpt q dv0 = false) :
    ∃ dvq, dv0 = some dvq ∧ dvq ≤ q := by
  cases dv0 with
  | none => simp [qltOpt] at h
  | some x =>
    refine ⟨x, rfl, ?_⟩
    simp only [qltOpt, decide_eq_false_iff_not] at h
    exact le_of_not_lt h

/-- Characterization of one relaxation pass over a duplicate-free neighbor row
whose targets are all keys of the distances dict: the pass succeeds, appends
one heap entry per strictly improved target recording its new distance, keeps
the keys, leaves every other distance unchanged, and leaves every listed
target with a finite distance at most the popped distance plus the edge
weight. -/
theorem relaxFold_spec (d : ℚ) :
    ∀ (row : List (String × ℚ)) (st : DState),
      (∀ p ∈ row, p.1 ∈ st.dist.map Prod.fst) →
      (row.map Prod.fst).Nodup →
      ∃ (st2 : DState) (push : List (ℚ × String)),
        relaxFold d row st = .ok st2 ∧
        st2.pq = st.pq ++ push ∧
        st2.dist.map Prod.fst = st.dist.map Prod.fst ∧
        push.length ≤ row.length ∧
        (∀ v, dictGet v st2.dist = dictGet v st.dist ∨
          ∃ w dv0, (v, w) ∈ row ∧ dictGet v st.dist = some dv0 ∧
            qltOpt (d + w) dv0 = true ∧
            dictGet v st2.dist = some (some (d + w)) ∧ (d + w, v) ∈ push) ∧
        (∀ e ∈ push, ∃ w dv0, (e.2, w) ∈ row ∧ e.1 = d + w ∧
          dictGet e.2 st2.dist = some (some e.1) ∧
          (push.filter (fun e2 => e2.2 = e.2)).length ≤ 1 ∧
          dictGet e.2 st.dist = some dv0 ∧ qltOpt e.1 dv0 = true) ∧
        (∀ p ∈ row, ∃ dy, dictGet p.1 st2.dist = some (some dy) ∧ dy ≤ d + p.2) := by
  intro row
  induction row with
  | nil =>
    intro st _ _
    refine ⟨st, [], rfl, by simp, rfl, by simp, ?_, ?_, ?_⟩
    · intro v
      exact Or.inl rfl
    · intro e he
      cases he
    · intro p hp
      cases hp
  | cons yw rest2 ih =>
    intro st hkeys hnodup
    obtain ⟨y, w⟩ := yw
    have hykey : y ∈ st.dist.map Prod.fst := hkeys (y, w) (List.mem_cons_self _ _)
    obtain ⟨dy0, hdy0⟩ := dictGet_isSome_of_mem_keys y st.dist hykey
    simp only [List.map_cons] at hnodup
    obtain ⟨hynotin, hnodup2⟩ := List.nodup_cons.mp hnodup
    simp only [relaxFold, hdy0]
    by_cases hrel : qltOpt (d + w) dy0 = true
    · rw [if_pos hrel]
      have hsetkeys : (dictSet y (some (d + w)) st.dist).map Prod.fst =
          st.dist.map Prod.fst := dictSet_keys_of_mem y _ st.dist hykey
      obtain ⟨st2, push2, hok, hpq, hkeys2, hlen, hpt, hpush, hrow⟩ :=
        ih ⟨dictSet y (some (d + w)) st.dist, st.pq ++ [(d + w, y)]⟩
          (fun p hp => by
            rw [hsetkeys]
            exact hkeys p (List.mem_cons_of_mem _ hp)) hnodup2
      have hfinY : dictGet y st2.dist = some (some (d + w)) := by
        rcases hpt y with h1 | h1
        · rw [h1]
          exact dictGet_dictSet_self y _ _
        · obtain ⟨w2, _, hmem2, _⟩ := h1
          exact absurd (List.mem_map.mpr ⟨(y, w2), hmem2, rfl⟩) hynotin
      have hpush2noY : ∀ e2 ∈ push2, ¬ e2.2 = y := by
        intro e2 he2 hey
        obtain ⟨w2, _, hmem2, _⟩ := hpush e2 he2
        rw [hey] at hmem2
        exact hynotin (List.mem_map.mpr ⟨(y, w2), hmem2, rfl⟩)
      refine ⟨st2, (d + w, y) :: push2, hok, ?_, hkeys2.trans hsetkeys, ?_, ?_, ?_, ?_⟩
      · rw [hpq]
        simp
      · simp only [List.length_cons]
        omega
      · intro v
        by_cases hv : v = y
        · subst hv
          exact Or.inr ⟨w, dy0, List.mem_cons_self _ _, hdy0, hrel, hfinY,
            List.mem_cons_self _ _⟩
        · rcases hpt v with h1 | h1
          · rw [h1]
            exact Or.inl (dictGet_dictSet_ne y v _ st.dist hv)
          · obtain ⟨w2, dv0A, hmem2, hgetA, hqlt, hfin, hpm⟩ := h1
            refine Or.inr ⟨w2, dv0A, List.mem_cons_of_mem _ hmem2, ?_, hqlt, hfin,
              List.mem_cons_of_mem _ hpm⟩
            rw [← hgetA]
            exact (dictGet_dictSet_ne y v _ st.dist hv).symm
      · intro e he
        rcases List.mem_cons.mp he with rfl | he2
        · refine ⟨w, dy0, List.mem_cons_self _ _, rfl, hfinY, ?_, hdy0, hrel⟩
          have hnil : push2.filter (fun e2 => e2.2 = y) = [] := by
            rw [List.filter_eq_nil]
            intro e2 he2
            simp only [decide_eq_true_eq]
            exact hpush2noY e2 he2
          simp [List.filter_cons, hnil]
        · obtain ⟨w2, dv0A, hmem2, he1, hfin, hcnt, hgetA, hqltA⟩ := hpush e he2
          have hey : ¬ e.2 = y := hpush2noY e he2
          refine ⟨w2, dv0A, List.mem_cons_of_mem _ hmem2, he1, hfin, ?_, ?_, hqltA⟩
          · have hheadne : ¬ (((d + w, y) : ℚ × String).2 = e.2) := by
              simp only
              intro hh
              exact hey hh.symm
            simpa [List.filter_cons, hheadne] using hcnt
          · rw [← hgetA]
            exact (dictGet_dictSet_ne y e.2 _ st.dist hey).symm
      · intro p hp
        rcases List.mem_cons.mp hp with rfl | hp2
        · exact ⟨d + w, hfinY, le_refl _⟩
        · exact hrow p hp2
    · rw [if_neg hrel]
      obtain ⟨st2, push, hok, hpq, hkeys2, hlen, hpt, hpush, hrow⟩ :=
        ih st (fun p hp => hkeys p (List.mem_cons_of_mem _ hp)) hnodup2
      have hunchY : dictGet y st2.dist = some dy0 := by
        rcases hpt y with h1 | h1
        · rw [h1, hdy0]
        · obtain ⟨w2, _, hmem2, _⟩ := h1
          exact absurd (List.mem_map.mpr ⟨(y, w2), hmem2, rfl⟩) hynotin
      refine ⟨st2, push, hok, hpq, hkeys2, ?_, ?_, ?_, ?_⟩
      · simp only [List.length_cons]
        omega
      · intro v
        rcases hpt v with h1 | h1
        · exact Or.inl h1
        · obtain ⟨w2, dv0A, hmem2, hget, hqlt, hfin, hpm⟩ := h1
          exact Or.inr ⟨w2, dv0A, List.mem_cons_of_mem _ hmem2, hget, hqlt, hfin, hpm⟩
      · intro e he
        obtain ⟨w2, dv0A, hmem2, he1, hfin, hcnt, hget, hqltA⟩ := hpush e he
        exact ⟨w2, dv0A, List.mem_cons_of_mem _ hmem2, he1, hfin, hcnt, hget, hqltA⟩
      · intro p hp
        rcases List.mem_cons.mp hp with rfl | hp2
        · obtain ⟨dyq, hdyq, hle⟩ := qltOpt_false (d + w) dy0 (Bool.eq_false_iff.mpr hrel)
          refine ⟨dyq, ?_, hle⟩
          rw [hunchY, hdyq]
        · exact hrow p hp2

/-- Reads of the all-infinite initial distances are `none` or infinite. -/
theorem dictGet_map_const_none (u : String) :
    ∀ ns : List String, dictGet u (ns.map (fun n => (n, (none : Option ℚ)))) = none ∨
      dictGet u (ns.map (fun n => (n, (none : Option ℚ)))) = some none := by
  intro ns
  induction ns with
  | nil => exact Or.inl rfl
  | cons n rest ih =>
    simp only [List.map_cons, dictGet]
    by_cases hn : n = u
    · rw [if_pos hn]
      exact Or.inr rfl
    · rw [if_neg hn]
      exact ih

/-- The keys of the all-infinite initial distances are the node names. -/
theorem map_const_none_keys (ns : List String) :
    (ns.map (fun n => (n, (none : Option ℚ)))).map Prod.fst = ns := by
  rw [List.map_map]
  exact List.map_id ns

/-- The loop invariant holds at dijkstra's initial state. -/
theorem dinv_init (g : Graph) (start : String) (hstart : start ∈ g.nodes) :
    DInv g start ⟨dictSet start (some 0) (g.nodes.map (fun n => (n, (none : Option ℚ)))),
      [(0, start)]⟩ := by
  have hkeys0 : (g.nodes.map (fun n => (n, (none : Option ℚ)))).map Prod.fst = g.nodes :=
    map_const_none_keys g.nodes
  have hgetS : dictGet start
      (dictSet start (some (0 : ℚ)) (g.nodes.map (fun n => (n, (none : Option ℚ))))) =
      some (some 0) := dictGet_dictSet_self start _ _
  have hgetNe : ∀ u, u ≠ start → ∀ du : ℚ,
      dictGet u (dictSet start (some (0 : ℚ))
        (g.nodes.map (fun n => (n, (none : Option ℚ))))) ≠ some (some du) := by
    intro u hu du
    rw [dictGet_dictSet_ne start u _ _ hu]
    rcases dictGet_map_const_none u g.nodes with h | h
    · rw [h]
      intro hh
      cases hh
    · rw [h]
      intro hh
      injection hh with h2
      cases h2
  refine ⟨?_, ?_, ?_, ?_, ?_, ?_, ?_⟩
  · rw [dictSet_keys_of_mem start _ _ (by rw [hkeys0]; exact hstart)]
    exact hkeys0
  · intro e he
    rcases List.mem_cons.mp he with rfl | he2
    · exact ⟨0, hgetS, le_refl 0⟩
    · cases he2
  · intro u du hget
    by_cases hu : u = start
    · subst hu
      rw [hgetS] at hget
      injection hget with h2
      injection h2 with h3
      subst h3
      simp [List.filter_cons]
    · exact absurd hget (hgetNe u hu du)
  · intro v dv hget hnot
    by_cases hv : v = start
    · subst hv
      rw [hgetS] at hget
      injection hget with h2
      injection h2 with h3
      subst h3
      exact absurd (List.mem_cons_self _ _) hnot
    · exact absurd hget (hgetNe v hv dv)
  · intro u du hget
    by_cases hu : u = start
    · subst hu
      rw [hgetS] at hget
      injection hget with h2
      injection h2 with h3
      subst h3
      exact Or.inl (List.mem_cons_self _ _)
    · exact absurd hget (hgetNe u hu du)
  · intro u du hget
    by_cases hu : u = start
    · subst hu
      rw [hgetS] at hget
      injection hget with h2
      injection h2 with h3
      subst h3
      exact reach_self g u
    · exact absurd hget (hgetNe u hu du)
  · exact ⟨0, hgetS, le_refl 0⟩

/-- With distinct keys, one plus out-degree sums to nodes plus edges. -/
theorem sum_nbrs_eq (g : Graph) (hnodup : g.nodes.Nodup) :
    (g.nodes.map (fun v => 1 + (g.nbrs v).length)).sum = g.nodes.length + g.totalEdges := by
  rw [sum_map_one_add]
  congr 1
  show ((g.adj.map Prod.fst).map (fun v => (g.nbrs v).length)).sum =
    (g.adj.map (fun p => p.2.length)).sum
  rw [List.map_map]
  apply congrArg List.sum
  apply List.map_congr_left
  intro p hp
  simp only [Function.comp]
  have h2 : g.nbrs p.1 = p.2 := by
    unfold Graph.nbrs
    rw [dictGet_of_mem_nodup p.1 p.2 g.adj (by obtain ⟨a, b⟩ := p; exact hp) hnodup]
    rfl
  rw [h2]

/-- The termination measure at dijkstra's initial state is below the fuel. -/
theorem phi_init_lt (g : Graph) (start : String) (hnodup : g.nodes.Nodup) :
    phi g ⟨dictSet start (some 0) (g.nodes.map (fun n => (n, (none : Option ℚ)))),
      [(0, start)]⟩ < 2 + g.nodes.length + g.totalEdges := by
  unfold phi
  have hbound := sum_map_le_sum
    (nodeCost g (dictSet start (some 0) (g.nodes.map (fun n => (n, (none : Option ℚ)))))
      [(0, start)])
    (fun v => 1 + (g.nbrs v).length) g.nodes (fun v _ => nodeCost_le g _ _ v)
  have hsum := sum_nbrs_eq g hnodup
  simp only [List.length_cons, List.length_nil]
  omega

/-- The loop invariant survives a skip iteration (stale heap entry). -/
theorem dinv_skip (g : Graph) (start : String) (st : DState) (hinv : DInv g start st)
    (e : ℚ × String) (du : ℚ)
    (hget : dictGet e.2 st.dist = some (some du)) (hgt : du < e.1) :
    DInv g start ⟨st.dist, removeFirst e st.pq⟩ := by
  refine ⟨hinv.keys, ?_, ?_, ?_, ?_, hinv.sound, hinv.base⟩
  · intro e2 he2
    exact hinv.entry_mem e2 (mem_of_mem_removeFirst e2 e _ he2)
  · intro u du2 hget2
    exact le_trans (filter_removeFirst_le e _ st.pq) (hinv.once u du2 hget2)
  · intro v dv hget2 hnot e2 he2
    by_cases hvin : (dv, v) ∈ st.pq
    · exfalso
      have heq : (dv, v) = e := by
        by_contra hne
        exact hnot ((mem_removeFirst_of_ne _ e hne st.pq).mpr hvin)
      have hv2 : v = e.2 := congrArg Prod.snd heq
      have hv1 : dv = e.1 := congrArg Prod.fst heq
      rw [hv2, hget] at hget2
      injection hget2 with h3
      injection h3 with h4
      rw [h4, hv1] at hgt
      exact lt_irrefl _ hgt
    · exact hinv.settled v dv hget2 hvin e2 (mem_of_mem_removeFirst e2 e _ he2)
  · intro u du2 hget2
    rcases hinv.relaxed u du2 hget2 with h1 | h1
    · left
      have hne : (du2, u) ≠ e := by
        intro hh
        have hu : u = e.2 := congrArg Prod.snd hh
        have hd : du2 = e.1 := congrArg Prod.fst hh
        rw [hu, hget] at hget2
        injection hget2 with h3
        injection h3 with h4
        rw [h4, hd] at hgt
        exact lt_irrefl _ hgt
      exact (mem_removeFirst_of_ne _ e hne st.pq).mpr h1
    · exact Or.inr h1

/-- The termination measure drops at a skip iteration. -/
theorem phi_skip (g : Graph) (st : DState) (e : ℚ × String) (du : ℚ)
    (he : e ∈ st.pq) (hget : dictGet e.2 st.dist = some (some du)) (hgt : du < e.1) :
    phi g ⟨st.dist, removeFirst e st.pq⟩ + 1 ≤ phi g st := by
  unfold phi
  have hlen := removeFirst_length e st.pq he
  have hsum : (g.nodes.map (nodeCost g st.dist (removeFirst e st.pq))).sum =
      (g.nodes.map (nodeCost g st.dist st.pq)).sum := by
    apply congrArg
    apply List.map_congr_left
    intro v hv
    simp only [nodeCost]
    cases hg : dictGet v st.dist with
    | none => rfl
    | some dv =>
      cases dv with
      | none => rfl
      | some dvq =>
        show (if (dvq, v) ∈ removeFirst e st.pq then 1 + (g.nbrs v).length else 0) =
          (if (dvq, v) ∈ st.pq then 1 + (g.nbrs v).length else 0)
        have hne : (dvq, v) ≠ e := by
          intro hh
          have hv2 : v = e.2 := congrArg Prod.snd hh
          have hv1 : dvq = e.1 := congrArg Prod.fst hh
          rw [hv2, hget] at hg
          injection hg with h3
          injection h3 with h4
          rw [h4, hv1] at hgt
          exact lt_irrefl _ hgt
        by_cases hm : (dvq, v) ∈ st.pq
        · rw [if_pos hm, if_pos ((mem_removeFirst_of_ne _ e hne st.pq).mpr hm)]
        · rw [if_neg hm, if_neg (fun hmm => hm ((mem_removeFirst_of_ne _ e hne st.pq).mp hmm))]
  rw [hsum]
  have hc : (⟨st.dist, removeFirst e st.pq⟩ : DState).pq.length =
      (removeFirst e st.pq).length := rfl
  rw [hc]
  omega


/-- A member makes its own filter nonempty. -/
theorem mem_filter_self_pos (a : ℚ × String) (l : List (ℚ × String)) (h : a ∈ l) :
    0 < (l.filter (fun x => x = a)).length := by
  have hmem : a ∈ l.filter (fun x => x = a) := List.mem_filter.mpr ⟨h, by simp⟩
  cases hf : l.filter (fun x => x = a) with
  | nil =>
    rw [hf] at hmem
    cases hmem
  | cons x rest => simp

/-- A stronger filter keeps at most as many elements. -/
theorem filter_length_mono {α : Type} (p q : α → Bool)
    (himp : ∀ x, p x = true → q x = true) :
    ∀ l : List α, (l.filter p).length ≤ (l.filter q).length := by
  intro l
  induction l with
  | nil => exact le_refl 0
  | cons x rest ih =>
    cases hp : p x with
    | true =>
      rw [List.filter_cons_of_pos hp, List.filter_cons_of_pos (himp x hp)]
      simpa using ih
    | false =>
      rw [List.filter_cons_of_neg (by simp [hp])]
      cases hq : q x with
      | true =>
        rw [List.filter_cons_of_pos hq]
        exact le_trans ih (by simp)
      | false =>
        rw [List.filter_cons_of_neg (by simp [hq])]
        exact ih

/-- The loop invariant survives an expansion iteration: popping an up-to-date
least entry and relaxing the popped node's whole neighbor row. -/
theorem dinv_expand (g : Graph) (start : String) (st : DState) (hinv : DInv g start st)
    (hnn : ∀ u ∈ g.nodes, ∀ p ∈ g.nbrs u, (0 : ℚ) ≤ p.2)
    (hrows : ∀ u ∈ g.nodes, ((g.nbrs u).map Prod.fst).Nodup)
    (e : ℚ × String) (du : ℚ)
    (he : e ∈ st.pq) (hmin : ∀ x ∈ st.pq, e.1 ≤ x.1)
    (hget : dictGet e.2 st.dist = some (some du)) (hd : e.1 = du)
    (st2 : DState) (push : List (ℚ × String))
    (hpq2 : st2.pq = removeFirst e st.pq ++ push)
    (hkeys2 : st2.dist.map Prod.fst = st.dist.map Prod.fst)
    (hpt : ∀ v, dictGet v st2.dist = dictGet v st.dist ∨
      ∃ w dv0, (v, w) ∈ g.nbrs e.2 ∧ dictGet v st.dist = some dv0 ∧
        qltOpt (du + w) dv0 = true ∧
        dictGet v st2.dist = some (some (du + w)) ∧ (du + w, v) ∈ push)
    (hpush : ∀ e2 ∈ push, ∃ w dv0, (e2.2, w) ∈ g.nbrs e.2 ∧ e2.1 = du + w ∧
      dictGet e2.2 st2.dist = some (some e2.1) ∧
      (push.filter (fun e3 => e3.2 = e2.2)).length ≤ 1 ∧
      dictGet e2.2 st.dist = some dv0 ∧ qltOpt e2.1 dv0 = true)
    (hrow : ∀ p ∈ g.nbrs e.2, ∃ dy, dictGet p.1 st2.dist = some (some dy) ∧
      dy ≤ du + p.2) :
    DInv g start st2 := by
  have huN : e.2 ∈ g.nodes := by
    rw [← hinv.keys]
    exact mem_keys_of_dictGet_some e.2 _ st.dist hget
  have hrow_nn : ∀ p ∈ g.nbrs e.2, (0 : ℚ) ≤ p.2 := hnn e.2 huN
  have hnopushU : ∀ x ∈ push, x.2 ≠ e.2 := by
    intro x hx hx2
    obtain ⟨w, dv0, hmem, hx1, _, _, hget0, hqlt⟩ := hpush x hx
    rw [hx2] at hget0
    rw [hget] at hget0
    injection hget0 with h2
    rw [← h2, hx1] at hqlt
    simp only [qltOpt, decide_eq_true_eq] at hqlt
    rw [hx2] at hmem
    have hw0 := hrow_nn (e.2, w) hmem
    simp only at hw0
    linarith
  have heL : e = (du, e.2) := by
    rw [← hd]
  have hcount_u : ((removeFirst e st.pq).filter (fun x => x = e)).length = 0 := by
    have h1 := filter_removeFirst_self e st.pq he
    have h2 := hinv.once e.2 du hget
    rw [← heL] at h2
    omega
  have hnotinrest : e ∉ removeFirst e st.pq := by
    intro hmem
    have h3 := mem_filter_self_pos e _ hmem
    omega
  refine ⟨hkeys2.trans hinv.keys, ?_, ?_, ?_, ?_, ?_, ?_⟩
  · intro e2 he2
    rw [hpq2] at he2
    rcases List.mem_append.mp he2 with h1 | h1
    · obtain ⟨du2, hold, hle⟩ := hinv.entry_mem e2 (mem_of_mem_removeFirst e2 e _ h1)
      rcases hpt e2.2 with h2 | h2
      · exact ⟨du2, h2.trans hold, hle⟩
      · obtain ⟨w, dv0, hmem, hget0, hqlt, hfin, _⟩ := h2
        rw [hold] at hget0
        injection hget0 with h3
        rw [← h3] at hqlt
        simp only [qltOpt, decide_eq_true_eq] at hqlt
        exact ⟨du + w, hfin, le_of_lt (lt_of_lt_of_le hqlt hle)⟩
    · obtain ⟨w, dv0, _, _, hfin, _, _, _⟩ := hpush e2 h1
      exact ⟨e2.1, hfin, le_refl _⟩
  · intro v dv hgetv
    rw [hpq2, List.filter_append, List.length_append]
    rcases hpt v with h1 | h1
    · have holdv : dictGet v st.dist = some (some dv) := h1.symm.trans hgetv
      have hpushnil : (push.filter (fun x => x = (dv, v))).length = 0 := by
        cases hf : push.filter (fun x => x = (dv, v)) with
        | nil => rfl
        | cons x xrest =>
          exfalso
          have hx : x ∈ push.filter (fun x2 => x2 = (dv, v)) := by
            rw [hf]
            exact List.mem_cons_self x xrest
          obtain ⟨hxp, hxe⟩ := List.mem_filter.mp hx
          simp only [decide_eq_true_eq] at hxe
          obtain ⟨w, dv0, hmem, hx1, hfin, _, hget0, hqlt⟩ := hpush x hxp
          rw [hxe] at hfin hget0 hqlt
          simp only at hfin hget0 hqlt
          rw [holdv] at hget0
          injection hget0 with h3
          rw [← h3] at hqlt
          simp only [qltOpt, decide_eq_true_eq] at hqlt
          rw [hgetv] at hfin
          injection hfin with h4
          injection h4 with h5
          rw [← h5] at hqlt
          exact lt_irrefl _ hqlt
      have hrest := le_trans (filter_removeFirst_le e (fun x => x = (dv, v)) st.pq)
        (hinv.once v dv holdv)
      omega
    · obtain ⟨w, dv0, hmem, hget0, hqlt, hfin, hpm⟩ := h1
      have hdv : dv = du + w := by
        rw [hgetv] at hfin
        injection hfin with h3
        injection h3 with h4
      have hrestnil : ((removeFirst e st.pq).filter (fun x => x = (dv, v))).length = 0 := by
        cases hf : (removeFirst e st.pq).filter (fun x => x = (dv, v)) with
        | nil => rfl
        | cons x xrest =>
          exfalso
          have hx : x ∈ (removeFirst e st.pq).filter (fun x2 => x2 = (dv, v)) := by
            rw [hf]
            exact List.mem_cons_self x xrest
          obtain ⟨hxp, hxe⟩ := List.mem_filter.mp hx
          simp only [decide_eq_true_eq] at hxe
          obtain ⟨du2, hold2, hle2⟩ := hinv.entry_mem x (mem_of_mem_removeFirst x e _ hxp)
          rw [hxe] at hold2 hle2
          simp only at hold2 hle2
          rw [hget0] at hold2
          injection hold2 with h3
          rw [h3] at hqlt
          simp only [qltOpt, decide_eq_true_eq] at hqlt
          rw [hdv] at hle2
          linarith
      have hpushle : (push.filter (fun x => x = (dv, v))).length ≤ 1 := by
        have hmono := filter_length_mono (fun x => x = (dv, v)) (fun x => x.2 = v)
          (by
            intro x hx
            simp only [decide_eq_true_eq] at hx ⊢
            rw [hx]) push
        obtain ⟨w2, dv02, _, _, _, hcnt, _, _⟩ := hpush (du + w, v) hpm
        simp only at hcnt
        omega
      omega
  · intro v dv hgetv hnot x hx
    rw [hpq2] at hnot hx
    rcases hpt v with h1 | h1
    · have holdv : dictGet v st.dist = some (some dv) := h1.symm.trans hgetv
      by_cases hvq : (dv, v) ∈ st.pq
      · have heq : (dv, v) = e := by
          by_contra hne
          exact hnot (List.mem_append.mpr
            (Or.inl ((mem_removeFirst_of_ne _ e hne st.pq).mpr hvq)))
        have hdv1 : dv = e.1 := congrArg Prod.fst heq
        rcases List.mem_append.mp hx with hx1 | hx1
        · rw [hdv1]
          exact hmin x (mem_of_mem_removeFirst x e _ hx1)
        · obtain ⟨w, dv0, hmem, hx1eq, _, _, _, _⟩ := hpush x hx1
          have hw0 := hrow_nn (x.2, w) hmem
          simp only at hw0
          rw [hdv1, hd, hx1eq]
          linarith
      · have hsetold := hinv.settled v dv holdv hvq
        rcases List.mem_append.mp hx with hx1 | hx1
        · exact hsetold x (mem_of_mem_removeFirst x e _ hx1)
        · obtain ⟨w, dv0, hmem, hx1eq, _, _, _, _⟩ := hpush x hx1
          have hw0 := hrow_nn (x.2, w) hmem
          simp only at hw0
          have hdue : dv ≤ e.1 := hsetold e he
          rw [hx1eq]
          rw [hd] at hdue
          linarith
    · obtain ⟨w, dv0, hmem, hget0, hqlt, hfin, hpm⟩ := h1
      exfalso
      have hdv : dv = du + w := by
        rw [hgetv] at hfin
        injection hfin with h3
        injection h3 with h4
      apply hnot
      apply List.mem_append.mpr
      right
      rw [hdv]
      exact hpm
  · intro v dv hgetv
    rcases hpt v with h1 | h1
    · have holdv : dictGet v st.dist = some (some dv) := h1.symm.trans hgetv
      by_cases hv : v = e.2
      · right
        subst hv
        have hdv : dv = du := by
          rw [hget] at holdv
          injection holdv with h3
          injection h3 with h4
          exact h4.symm
        intro p hp
        obtain ⟨dy, hfin, hle⟩ := hrow p hp
        refine ⟨dy, hfin, ?_⟩
        rw [hdv]
        exact hle
      · rcases hinv.relaxed v dv holdv with h2 | h2
        · left
          rw [hpq2]
          apply List.mem_append.mpr
          left
          refine (mem_removeFirst_of_ne _ e ?_ st.pq).mpr h2
          intro hh
          exact hv (congrArg Prod.snd hh)
        · right
          intro p hp
          obtain ⟨dy, holdp, hlep⟩ := h2 p hp
          rcases hpt p.1 with h3 | h3
          · exact ⟨dy, h3.trans holdp, hlep⟩
          · obtain ⟨w2, dv02, hmem2, hget02, hqlt2, hfin2, _⟩ := h3
            rw [holdp] at hget02
            injection hget02 with h4
            rw [← h4] at hqlt2
            simp only [qltOpt, decide_eq_true_eq] at hqlt2
            exact ⟨du + w2, hfin2, le_trans (le_of_lt hqlt2) hlep⟩
    · obtain ⟨w, dv0, hmem, hget0, hqlt, hfin, hpm⟩ := h1
      left
      have hdv : dv = du + w := by
        rw [hgetv] at hfin
        injection hfin with h3
        injection h3 with h4
      rw [hpq2]
      apply List.mem_append.mpr
      right
      rw [hdv]
      exact hpm
  · intro v dv hgetv
    rcases hpt v with h1 | h1
    · exact hinv.sound v dv (h1.symm.trans hgetv)
    · obtain ⟨w, dv0, hmem, hget0, hqlt, hfin, hpm⟩ := h1
      have hdv : dv = du + w := by
        rw [hgetv] at hfin
        injection hfin with h3
        injection h3 with h4
      have hedge : dictGet v (g.nbrs e.2) = some w :=
        dictGet_of_mem_nodup v w _ hmem (hrows e.2 huN)
      rw [hdv]
      exact reach_step g start e.2 v w du (hinv.sound e.2 du hget) hedge
  · obtain ⟨ds, hgS, hds0⟩ := hinv.base
    rcases hpt start with h1 | h1
    · exact ⟨ds, h1.trans hgS, hds0⟩
    · obtain ⟨w, dv0, hmem, hget0, hqlt, hfin, _⟩ := h1
      rw [hgS] at hget0
      injection hget0 with h2
      rw [← h2] at hqlt
      simp only [qltOpt, decide_eq_true_eq] at hqlt
      exact ⟨du + w, hfin, le_of_lt (lt_of_lt_of_le hqlt hds0)⟩

/-- The termination measure drops at an expansion iteration. -/
theorem phi_expand (g : Graph) (start : String) (st : DState) (hinv : DInv g start st)
    (hnn : ∀ u ∈ g.nodes, ∀ p ∈ g.nbrs u, (0 : ℚ) ≤ p.2)
    (e : ℚ × String) (du : ℚ)
    (he : e ∈ st.pq) (hmin : ∀ x ∈ st.pq, e.1 ≤ x.1)
    (hget : dictGet e.2 st.dist = some (some du)) (hd : e.1 = du)
    (st2 : DState) (push : List (ℚ × String))
    (hpq2 : st2.pq = removeFirst e st.pq ++ push)
    (hlen : push.length ≤ (g.nbrs e.2).length)
    (hpt : ∀ v, dictGet v st2.dist = dictGet v st.dist ∨
      ∃ w dv0, (v, w) ∈ g.nbrs e.2 ∧ dictGet v st.dist = some dv0 ∧
        qltOpt (du + w) dv0 = true ∧
        dictGet v st2.dist = some (some (du + w)) ∧ (du + w, v) ∈ push)
    (hpush : ∀ e2 ∈ push, ∃ w dv0, (e2.2, w) ∈ g.nbrs e.2 ∧ e2.1 = du + w ∧
      dictGet e2.2 st2.dist = some (some e2.1) ∧
      (push.filter (fun e3 => e3.2 = e2.2)).length ≤ 1 ∧
      dictGet e2.2 st.dist = some dv0 ∧ qltOpt e2.1 dv0 = true) :
    phi g st2 + 1 ≤ phi g st := by
  have huN : e.2 ∈ g.nodes := by
    rw [← hinv.keys]
    exact mem_keys_of_dictGet_some e.2 _ st.dist hget
  have hrow_nn : ∀ p ∈ g.nbrs e.2, (0 : ℚ) ≤ p.2 := hnn e.2 huN
  have hnotrelaxU : dictGet e.2 st2.dist = dictGet e.2 st.dist := by
    rcases hpt e.2 with h1 | h1
    · exact h1
    · obtain ⟨w, dv0, hmem, hget0, hqlt, _, _⟩ := h1
      rw [hget] at hget0
      injection hget0 with h2
      rw [← h2] at hqlt
      simp only [qltOpt, decide_eq_true_eq] at hqlt
      have hw0 := hrow_nn (e.2, w) hmem
      simp only at hw0
      exfalso
      linarith
  have hnopushU : ∀ x ∈ push, x.2 ≠ e.2 := by
    intro x hx hx2
    obtain ⟨w, dv0, hmem, hx1, _, _, hget0, hqlt⟩ := hpush x hx
    rw [hx2] at hget0
    rw [hget] at hget0
    injection hget0 with h2
    rw [← h2, hx1] at hqlt
    simp only [qltOpt, decide_eq_true_eq] at hqlt
    rw [hx2] at hmem
    have hw0 := hrow_nn (e.2, w) hmem
    simp only at hw0
    linarith
  have heL : e = (du, e.2) := by
    rw [← hd]
  have hcount_u : ((removeFirst e st.pq).filter (fun x => x = e)).length = 0 := by
    have h1 := filter_removeFirst_self e st.pq he
    have h2 := hinv.once e.2 du hget
    rw [← heL] at h2
    omega
  have hnotinrest : e ∉ removeFirst e st.pq := by
    intro hmem
    have h3 := mem_filter_self_pos e _ hmem
    omega
  have hnotin2 : (du, e.2) ∉ st2.pq := by
    rw [hpq2, ← heL]
    intro hmem
    rcases List.mem_append.mp hmem with h1 | h1
    · exact hnotinrest h1
    · exact hnopushU e h1 rfl
  have hfinU : dictGet e.2 st2.dist = some (some du) := hnotrelaxU.trans hget
  have hstrict : nodeCost g st2.dist st2.pq e.2 + (1 + (g.nbrs e.2).length) ≤
      nodeCost g st.dist st.pq e.2 := by
    have hc1 : nodeCost g st2.dist st2.pq e.2 = 0 := by
      simp only [nodeCost, hfinU]
      rw [if_neg hnotin2]
    have hc2 : nodeCost g st.dist st.pq e.2 = 1 + (g.nbrs e.2).length := by
      simp only [nodeCost, hget]
      rw [if_pos (by rw [← heL]; exact he)]
    omega
  have hptwise : ∀ v ∈ g.nodes, nodeCost g st2.dist st2.pq v ≤
      nodeCost g st.dist st.pq v := by
    intro v hv
    rcases hpt v with h1 | h1
    · cases ho : dictGet v st.dist with
      | none =>
        simp only [nodeCost, h1, ho]
        exact le_refl 0
      | some o =>
        cases o with
        | none =>
          simp only [nodeCost, h1, ho]
          exact le_refl _
        | some dvq =>
          simp only [nodeCost, h1, ho]
          by_cases hm2 : (dvq, v) ∈ st2.pq
          · rw [if_pos hm2]
            have hmq : (dvq, v) ∈ st.pq := by
              rw [hpq2] at hm2
              rcases List.mem_append.mp hm2 with hx | hx
              · exact mem_of_mem_removeFirst _ e _ hx
              · exfalso
                obtain ⟨w, dv0, hmem, hx1, hfin, _, hget0, hqlt⟩ := hpush (dvq, v) hx
                simp only at hx1 hfin hget0 hqlt
                rw [ho] at hget0
                injection hget0 with h3
                rw [← h3] at hqlt
                simp only [qltOpt, decide_eq_true_eq] at hqlt
                exact lt_irrefl _ hqlt
            rw [if_pos hmq]
          · rw [if_neg hm2]
            by_cases hmq : (dvq, v) ∈ st.pq
            · rw [if_pos hmq]
              omega
            · rw [if_neg hmq]
    · obtain ⟨w, dv0, hmem, hget0, hqlt, hfin, hpm⟩ := h1
      have hle1 := nodeCost_le g st2.dist st2.pq v
      have heq : nodeCost g st.dist st.pq v = 1 + (g.nbrs v).length := by
        simp only [nodeCost, hget0]
        cases dv0 with
        | none => rfl
        | some dvq =>
          show (if (dvq, v) ∈ st.pq then 1 + (g.nbrs v).length else 0) =
            1 + (g.nbrs v).length
          simp only [qltOpt, decide_eq_true_eq] at hqlt
          by_cases hmq : (dvq, v) ∈ st.pq
          · rw [if_pos hmq]
          · exfalso
            have hset := hinv.settled v dvq hget0 hmq e he
            have hw0 := hrow_nn (v, w) hmem
            simp only at hw0
            rw [hd] at hset
            linarith
      omega
  have hsum := sum_map_add_le_of_strict (nodeCost g st2.dist st2.pq)
    (nodeCost g st.dist st.pq) (1 + (g.nbrs e.2).length) e.2 g.nodes huN hptwise hstrict
  have hrl := removeFirst_length e st.pq he
  have hplen : st2.pq.length = (removeFirst e st.pq).length + push.length := by
    rw [hpq2, List.length_append]
  unfold phi
  omega

/-- The dijkstra loop succeeds within any fuel exceeding the termination
measure, delivering a distances dict that satisfies the invariant with an
empty heap. -/
theorem dloop_ok (g : Graph) (start : String)
    (hnn : ∀ u ∈ g.nodes, ∀ p ∈ g.nbrs u, (0 : ℚ) ≤ p.2)
    (hcl : ∀ u ∈ g.nodes, ∀ p ∈ g.nbrs u, p.1 ∈ g.nodes)
    (hrows : ∀ u ∈ g.nodes, ((g.nbrs u).map Prod.fst).Nodup) :
    ∀ (fuel : Nat) (st : DState), DInv g start st → phi g st < fuel →
      ∃ ds, dloop g fuel st = .ok ds ∧ DInv g start ⟨ds, []⟩ := by
  intro fuel
  induction fuel with
  | zero =>
    intro st hinv hphi
    exact absurd hphi (Nat.not_lt_zero _)
  | succ f ih =>
    intro st hinv hphi
    cases hpop : popMinD st.pq with
    | none =>
      have hpq : st.pq = [] := popMinD_none st.pq hpop
      refine ⟨st.dist, by simp only [dloop, hpop], ?_⟩
      rw [← hpq]
      exact hinv
    | some pr =>
      obtain ⟨e, rest⟩ := pr
      obtain ⟨he, hrest, hmin⟩ := popMinD_some_spec st.pq e rest hpop
      subst hrest
      obtain ⟨du, hget, hdule⟩ := hinv.entry_mem e he
      by_cases hskip : qgtOpt e.1 (some du) = true
      · have hgt : du < e.1 := by
          simp only [qgtOpt, decide_eq_true_eq] at hskip
          exact hskip
        have hinv2 := dinv_skip g start st hinv e du hget hgt
        have hphi2 := phi_skip g st e du he hget hgt
        obtain ⟨ds, hok, hfin⟩ := ih ⟨st.dist, removeFirst e st.pq⟩ hinv2 (by omega)
        refine ⟨ds, ?_, hfin⟩
        simp only [dloop, hpop, hget]
        rw [if_pos hskip]
        exact hok
      · have hle : e.1 ≤ du := by
          simp only [qgtOpt, decide_eq_true_eq] at hskip
          exact le_of_not_lt hskip
        have hd : e.1 = du := le_antisymm hle hdule
        have huN : e.2 ∈ g.nodes := by
          rw [← hinv.keys]
          exact mem_keys_of_dictGet_some e.2 _ st.dist hget
        obtain ⟨st2, push, hok2, hpq2, hkeys2, hlen, hpt, hpush, hrow⟩ :=
          relaxFold_spec e.1 (g.nbrs e.2) ⟨st.dist, removeFirst e st.pq⟩
            (by
              intro p hp
              show p.1 ∈ st.dist.map Prod.fst
              rw [hinv.keys]
              exact hcl e.2 huN p hp)
            (hrows e.2 huN)
        rw [hd] at hpt hpush hrow
        have hpq2b : st2.pq = removeFirst e st.pq ++ push := hpq2
        have hkeys2b : st2.dist.map Prod.fst = st.dist.map Prod.fst := hkeys2
        have hptb : ∀ v, dictGet v st2.dist = dictGet v st.dist ∨
            ∃ w dv0, (v, w) ∈ g.nbrs e.2 ∧ dictGet v st.dist = some dv0 ∧
              qltOpt (du + w) dv0 = true ∧
              dictGet v st2.dist = some (some (du + w)) ∧ (du + w, v) ∈ push := hpt
        have hpushb : ∀ e2 ∈ push, ∃ w dv0, (e2.2, w) ∈ g.nbrs e.2 ∧ e2.1 = du + w ∧
            dictGet e2.2 st2.dist = some (some e2.1) ∧
            (push.filter (fun e3 => e3.2 = e2.2)).length ≤ 1 ∧
            dictGet e2.2 st.dist = some dv0 ∧ qltOpt e2.1 dv0 = true := hpush
        have hrowb : ∀ p ∈ g.nbrs e.2, ∃ dy, dictGet p.1 st2.dist = some (some dy) ∧
            dy ≤ du + p.2 := hrow
        have hinv2 := dinv_expand g start st hinv hnn hrows e du he hmin hget hd st2 push
          hpq2b hkeys2b hptb hpushb hrowb
        have hphi2 := phi_expand g start st hinv hnn e du he hmin hget hd st2 push
          hpq2b hlen hptb hpushb
        obtain ⟨ds, hok, hfin⟩ := ih st2 hinv2 (by omega)
        refine ⟨ds, ?_, hfin⟩
        simp only [dloop, hpop, hget]
        rw [if_neg hskip]
        simp only [hok2]
        exact hok


/-- At an empty heap the invariant gives local relaxation at every finite
node. -/
theorem dinv_final_local (g : Graph) (start : String) (ds : List (String × Option ℚ))
    (hfin : DInv g start ⟨ds, []⟩) :
    ∀ u du, dictGet u ds = some (some du) →
      ∀ p ∈ g.nbrs u, ∃ dy, dictGet p.1 ds = some (some dy) ∧ dy ≤ du + p.2 := by
  intro u du hget p hp
  rcases hfin.relaxed u du hget with h1 | h1
  · cases h1
  · exact h1 p hp

/-- Local relaxation propagates along any walk: the recorded distance of the
endpoint is at most the walk start's distance plus the walk weight. -/
theorem dloop_complete (g : Graph) (ds : List (String × Option ℚ))
    (hloc : ∀ u du, dictGet u ds = some (some du) →
      ∀ p ∈ g.nbrs u, ∃ dy, dictGet p.1 ds = some (some dy) ∧ dy ≤ du + p.2) :
    ∀ (rest : List String) (u : String) (du c : ℚ),
      dictGet u ds = some (some du) → chainWeight g u rest = some c →
      ∀ v, (u :: rest).getLast? = some v →
        ∃ dv, dictGet v ds = some (some dv) ∧ dv ≤ du + c := by
  intro rest
  induction rest with
  | nil =>
    intro u du c hget hc v hlast
    simp only [chainWeight] at hc
    injection hc with hc2
    have hv : u = v := by simpa using hlast
    subst hv
    refine ⟨du, hget, ?_⟩
    rw [← hc2]
    norm_num
  | cons y rest2 ih =>
    intro u du c hget hc v hlast
    simp only [chainWeight] at hc
    cases hw : dictGet y (g.nbrs u) with
    | none =>
      simp only [hw] at hc
      cases hc
    | some w =>
      simp only [hw] at hc
      cases hc1 : chainWeight g y rest2 with
      | none =>
        simp only [hc1] at hc
        cases hc
      | some c1 =>
        simp only [hc1, Option.map_some'] at hc
        injection hc with hc2
        obtain ⟨dy, hgety, hley⟩ := hloc u du hget (y, w) (dictGet_some_mem y w _ hw)
        simp only at hley
        have hlast2 : (y :: rest2).getLast? = some v := by
          rw [← hlast]
          rfl
        obtain ⟨dv, hgetv, hlev⟩ := ih y dy c1 hgety hc1 v hlast2
        refine ⟨dv, hgetv, ?_⟩
        rw [← hc2]
        linarith

/-- C7: on a graph with distinct node keys, duplicate-free neighbor rows,
nonnegative edge weights, and every edge target itself a node, dijkstra from a
node of the graph succeeds with a mapping defined exactly on the graph's
nodes, in which the start maps to 0, every finite entry is the weight of some
walk from the start (hence nonnegative) and a lower bound on the weight of
every walk from the start to that node, and a node maps to infinity exactly
when no walk from the start reaches it. -/
theorem dijkstra_spec (g : Graph) (start : String)
    (hnn : ∀ u ∈ g.nodes, ∀ p ∈ g.nbrs u, (0 : ℚ) ≤ p.2)
    (hcl : ∀ u ∈ g.nodes, ∀ p ∈ g.nbrs u, p.1 ∈ g.nodes)
    (hnodup : g.nodes.Nodup)
    (hrows : ∀ u ∈ g.nodes, ((g.nbrs u).map Prod.fst).Nodup)
    (hstart : start ∈ g.nodes) :
    ∃ ds, g.dijkstra start = .ok ds ∧
      ds.map Prod.fst = g.nodes ∧
      dictGet start ds = some (some 0) ∧
      ∀ v ∈ g.nodes,
        (∀ dv, dictGet v ds = some (some dv) →
          Reach g start v dv ∧ 0 ≤ dv ∧ ∀ c, Reach g start v c → dv ≤ c) ∧
        (dictGet v ds = some none ↔ ¬ ∃ c, Reach g start v c) := by
  obtain ⟨ds, hok, hfin⟩ := dloop_ok g start hnn hcl hrows
    (2 + g.nodes.length + g.totalEdges)
    ⟨dictSet start (some 0) (g.nodes.map (fun n => (n, (none : Option ℚ)))), [(0, start)]⟩
    (dinv_init g start hstart) (phi_init_lt g start hnodup)
  have hkeysb : ds.map Prod.fst = g.nodes := hfin.keys
  have hloc := dinv_final_local g start ds hfin
  obtain ⟨dS, hgS, hds0⟩ := hfin.base
  have hgSb : dictGet start ds = some (some dS) := hgS
  have hreachS : Reach g start start dS := hfin.sound start dS hgS
  have hS0 : dS = 0 := by
    obtain ⟨restS, hcS, _⟩ := hreachS
    have h2 := chainWeight_nonneg g hnn restS start dS hcS
    linarith
  subst hS0
  have hcomp : ∀ v c, Reach g start v c →
      ∃ dv, dictGet v ds = some (some dv) ∧ dv ≤ c := by
    intro v c hr
    obtain ⟨rest, hc, hlast⟩ := hr
    obtain ⟨dv, hgv, hlev⟩ := dloop_complete g ds hloc rest start 0 c hgSb hc v hlast
    refine ⟨dv, hgv, ?_⟩
    linarith
  refine ⟨ds, hok, hkeysb, hgSb, ?_⟩
  intro v hv
  constructor
  · intro dv hgetv
    refine ⟨hfin.sound v dv hgetv, ?_, ?_⟩
    · obtain ⟨rest, hc, _⟩ := hfin.sound v dv hgetv
      exact chainWeight_nonneg g hnn rest start dv hc
    · intro c hr
      obtain ⟨dv2, hgv2, hlev2⟩ := hcomp v c hr
      rw [hgetv] at hgv2
      injection hgv2 with h3
      injection h3 with h4
      rw [h4]
      exact hlev2
  · constructor
    · intro hnone hex
      obtain ⟨c, hr⟩ := hex
      obtain ⟨dv2, hgv2, _⟩ := hcomp v c hr
      rw [hnone] at hgv2
      injection hgv2 with h3
      cases h3
    · intro hnr
      obtain ⟨o, ho⟩ := dictGet_isSome_of_mem_keys v ds (by rw [hkeysb]; exact hv)
      cases o with
      | none => exact ho
      | some dvq => exact absurd ⟨dvq, hfin.sound v dvq ho⟩ hnr

/-- C7 witness: the dijkstra statement instantiated on the concrete two-node
graph with one directed unit edge, every hypothesis evaluated. -/
theorem dijkstra_spec_witness :
    ∃ ds, gAB.dijkstra "A" = .ok ds ∧
      ds.map Prod.fst = gAB.nodes ∧
      dictGet "A" ds = some (some 0) ∧
      ∀ v ∈ gAB.nodes,
        (∀ dv, dictGet v ds = some (some dv) →
          Reach gAB "A" v dv ∧ 0 ≤ dv ∧ ∀ c, Reach gAB "A" v c → dv ≤ c) ∧
        (dictGet v ds = some none ↔ ¬ ∃ c, Reach gAB "A" v c) :=
  dijkstra_spec gAB "A" (by decide) (by decide) (by decide) (by decide) (by decide)
